import Mathlib

/-!
# Verification of the tracker reconciliation engine (`tracker_io.py`)

Shallow embedding of `src/cline_utils/dependency_system/io/tracker_io.py`.
The tracker file's core operations — writing/reading tracker files, rebuilding
the grid on key-set change, applying suggestions, merging two trackers,
removing a key, and backup retention — are embedded as executable Lean
functions and their specification claims are proved or refuted below.

External collaborators that are imported by `tracker_io.py` but whose code is
not part of the excerpt (the row codec `compress`/`decompress`, the key
ordering service `sort_key_strings_hierarchically`, `validate_key`,
`validate_grid`, `normalize_path`) are modelled from the spec's contracts;
each such definition carries a doc comment starting with `Modelled from the
spec:`.

Conventions:
* Python `Dict[str, str]` values are embedded as association lists
  `List (String × String)`; insertion (`d[k] = v`) is `dinsert`, which
  replaces in place or appends, mirroring Python dict insertion order.
* In-memory decompressed grids inside `update_tracker` are embedded as total
  functions `String → List Char`; the grid's domain is always the fixed list
  of final keys, and the written artifact is produced by mapping over that
  list, exactly as the Python dict comprehension does.
* A tracker file on disk is modelled as its list of lines (`List String`);
  this is adequate as long as no written field contains a newline, which the
  round-trip hypotheses enforce.
-/

/-- Relation symbol for "not yet determined" (`PLACEHOLDER_CHAR` from
`dependency_grid`). Modelled from the spec: fixed relation alphabet. -/
def PLACEHOLDER_CHAR : Char := 'p'

/-- Relation symbol for the self-relation on the diagonal (`DIAGONAL_CHAR`).
Modelled from the spec: fixed relation alphabet. -/
def DIAGONAL_CHAR : Char := 'o'

/-- Relation symbol for "no relation" (`EMPTY_CHAR`). Modelled from the spec:
fixed relation alphabet; `empty` is committed data, distinct from
`placeholder`. -/
def EMPTY_CHAR : Char := '.'

/-- Modelled from the spec: the Row Codec contract (§4.1) requires only
`decode(encode(s)) == s` and that the decoded length is determined by the
encoded text alone.  The codec's internal algorithm is explicitly out of
scope, so it is modelled as the identity embedding of a symbol sequence into
a string, which satisfies the contract.  Under this model `decompress` is
total, so the source's `except`-branches around decompression are
unreachable (noted where they occur). -/
def compress (row : List Char) : String := String.mk row

/-- Modelled from the spec: inverse of `compress`; see the Row Codec
contract (§4.1). -/
def decompress (s : String) : List Char := s.data

/-- Python's `\s` character class restricted to ASCII (the character data
appearing in tracker files is ASCII). -/
def pythonWS (c : Char) : Bool :=
  c = ' ' || c = '\t' || c = '\n' || c = '\r' || c = '\x0b' || c = '\x0c'

/-- Character-list trim used to model Python's `str.strip()`. -/
def trimList (l : List Char) : List Char :=
  ((l.dropWhile pythonWS).reverse.dropWhile pythonWS).reverse

/-- Model of Python's `str.strip()`. -/
def strTrim (s : String) : String := String.mk (trimList s.data)

/-- Model of `str.startswith`, stated on character data so that proofs can
reason about it structurally. -/
def strStarts (s pre : String) : Bool := pre.data.isPrefixOf s.data

/-- Modelled from the spec: `normalize_path` from `path_utils` produces a
"canonical forward-slash path" (§3 KeyInfo); it is modelled as backslash to
forward-slash conversion, which is idempotent. -/
def normalize_path (p : String) : String :=
  String.mk (p.data.map (fun c => if c = '\\' then '/' else c))

/-- Modelled from the spec: `validate_key` from `key_manager`; §6 says "Key
format: one-or-more alphanumeric characters". -/
def validate_key (k : String) : Bool :=
  !k.data.isEmpty && k.data.all Char.isAlphanum

/-- Structural lexicographic comparison of character data (used to give the
key ordering model a fully computable total order). -/
def charListLt : List Char → List Char → Bool
  | [], [] => false
  | [], _ :: _ => true
  | _ :: _, [] => false
  | a :: as, b :: bs =>
    if a.toNat < b.toNat then true
    else if b.toNat < a.toNat then false
    else charListLt as bs

/-- Non-strict version of `charListLt` lifted to strings. -/
def keyLe (a b : String) : Bool := !charListLt b.data a.data

/-- Modelled from the spec: the Key Ordering Service contract (§4.2) — a
total, deterministic order over key strings.  The hierarchical grouping
refinement is policy, not engine; any fixed total order satisfies the
contract, so the service is modelled as an insertion sort by a lexicographic
string order.  All operations below call it once and reuse the result, as
§4.2 demands. -/
def sort_key_strings_hierarchically (keys : List String) : List String :=
  keys.insertionSort (fun a b => keyLe a b = true)

/-- First index of `k` in `l` (`l.index(k)` / the `key_to_idx` maps built
throughout `tracker_io.py`); equals `l.length` when `k` is absent. -/
def idxOf (k : String) : List String → Nat
  | [] => 0
  | a :: t => if a = k then 0 else idxOf k t + 1

/-- Association-list lookup (Python dict access with first-binding-wins,
which coincides with dict behaviour when keys are unique). -/
def alookup : List (String × α) → String → Option α
  | [], _ => none
  | (k, v) :: t, q => if k = q then some v else alookup t q

/-- Association-list insertion mirroring Python dict assignment `d[k] = v`:
replace the binding in place if the key is present, else append. -/
def dinsert : List (String × α) → String → α → List (String × α)
  | [], k, v => [(k, v)]
  | e :: t, k, v => if e.1 = k then (k, v) :: t else e :: dinsert t k v

/-- Python dict-merge `{**a, **b}` (later map wins): fold the second map's
bindings into the first. -/
def dict_merge (a b : List (String × String)) : List (String × String) :=
  b.foldl (fun d kv => dinsert d kv.1 kv.2) a

/-- Row of `n` placeholders with the diagonal character at position `i`
(no-op when `i` is out of range, matching the guarded Python code). This is
the row shape produced at every re-initialization site in `tracker_io.py`. -/
def initRowAt (n i : Nat) : List Char :=
  (List.replicate n PLACEHOLDER_CHAR).set i DIAGONAL_CHAR

/-- In-memory parse result of a tracker file (`read_tracker_file`'s return
dictionary: `keys`, `grid`, `last_key_edit`, `last_grid_edit`). -/
structure TrackerData where
  keys : List (String × String)
  grid : List (String × String)
  last_key_edit : String
  last_grid_edit : String
  deriving Repr, DecidableEq

/-- Modelled from the spec: `validate_grid` from `dependency_grid` is not in
the excerpt.  §4.3 says the writer "validates that the grid is square over
that order", yet immediately afterwards "repairs any row whose decoded
length disagrees with the expected key count" and re-initializes rows that
are absent or fail to decode; for all of those repair branches to be
reachable, validation cannot itself reject absent, short or undecodable
rows.  The weakest reading keeping every `write_tracker_file` branch live is
the domain check: every row key of the grid belongs to the canonical key
order. -/
def validate_grid (grid : List (String × String)) (sorted_keys_list : List String) : Bool :=
  grid.all (fun p => sorted_keys_list.contains p.1)

/-- Pure content produced by a successful `write_tracker_file` call
(lines 156-210): the canonical key order, the validated/repaired grid that
is serialized, and the file's lines. -/
structure WriteResult where
  sortedKeys : List String
  finalGrid : List (String × String)
  lines : List String
  deriving Repr, DecidableEq

/-- Model of `' '.join(sorted_keys_list)` building the grid header. -/
def joinSpace : List String → String
  | [] => ""
  | [k] => k
  | k :: t => k ++ " " ++ joinSpace t

/-- Serialization of the tracker file body (`write_tracker_file`
lines 188-205): key-definition block, audit lines, grid block.  The file is
modelled as its list of lines; every `f.write(... + "\n")` contributes one
line. -/
def writeLines (sortedKeysList : List String) (keyDefs : List (String × String))
    (finalGrid : List (String × String)) (lastKeyEdit lastGridEdit : String) :
    List String :=
  ["---KEY_DEFINITIONS_START---", "Key Definitions:"]
  ++ sortedKeysList.map (fun k => k ++ ": " ++ normalize_path ((alookup keyDefs k).getD ""))
  ++ ["---KEY_DEFINITIONS_END---", ""]
  ++ ["last_KEY_edit: " ++ lastKeyEdit, "last_GRID_edit: " ++ lastGridEdit, ""]
  ++ ["---GRID_START---"]
  ++ (if sortedKeysList.isEmpty then ["X "]
      else ("X " ++ joinSpace sortedKeysList)
        :: sortedKeysList.map (fun k => k ++ " = " ++ (alookup finalGrid k).getD ""))
  ++ ["---GRID_END---"]

/-- Repair step of `write_tracker_file` (lines 172-185): a present row whose
decoded length equals the expected key count is kept verbatim; an absent row
(or, in the source, one that fails to decompress — unreachable under the
identity codec model) is re-initialized to all-placeholder with the diagonal
at the row key's own index. -/
def writeRowFor (grid : List (String × String)) (sortedKeysList : List String)
    (rowKey : String) : List Char :=
  match alookup grid rowKey with
  | some compressedRow =>
    let d := decompress compressedRow
    if d.length = sortedKeysList.length then d
    else initRowAt sortedKeysList.length (idxOf rowKey sortedKeysList)
  | none => initRowAt sortedKeysList.length (idxOf rowKey sortedKeysList)

/-- Embedding of `write_tracker_file` (lines 137-214).  Filesystem effects
(`os.makedirs`, opening the file) are outside the model; the returned
`WriteResult` is the content that reaches the disk, and `none` models the
`return False` path taken when grid validation fails, before the file is
opened for writing. -/
def write_tracker_file (keyDefs : List (String × String))
    (grid : List (String × String)) (lastKeyEdit lastGridEdit : String) :
    Option WriteResult :=
  let sortedKeysList := sort_key_strings_hierarchically (keyDefs.map Prod.fst)
  if ¬ validate_grid grid sortedKeysList then none
  else
    let finalGrid := sortedKeysList.map
      (fun rowKey => (rowKey, compress (writeRowFor grid sortedKeysList rowKey)))
    some ⟨sortedKeysList, finalGrid,
      writeLines sortedKeysList keyDefs finalGrid lastKeyEdit lastGridEdit⟩

/-- Parse of one definition/grid line against the source pattern
`^([a-zA-Z0-9]+)\s*(sep)\s*(.*)$` followed by `strip()` of the captured
value (`read_tracker_file` lines 105-108 and 119-122). -/
def parseKV (sep : Char) (line : String) : Option (String × String) :=
  let cs := line.data
  let k := cs.takeWhile Char.isAlphanum
  if k.isEmpty then none
  else
    match (cs.drop k.length).dropWhile pythonWS with
    | c :: r => if c = sep then some (String.mk k, strTrim (String.mk r)) else none
    | [] => none

/-- Lines strictly between the first `startMark` line and the following
`endMark` line; `none` when either marker is absent, in which case
`read_tracker_file` leaves that section's data empty.  The source locates
the markers by a case-insensitive regex over the whole content; written
tracker files always carry the markers in canonical case on lines of their
own, where the two coincide. -/
def takeSection (ls : List String) (startMark endMark : String) : Option (List String) :=
  match ls.findIdx? (fun l => l = startMark) with
  | none => none
  | some i =>
    let rest := ls.drop (i + 1)
    match rest.findIdx? (fun l => l = endMark) with
    | none => none
    | some j => some (rest.take j)

/-- Model of `section_content.strip().splitlines()` on the grid block:
stripping the joined block removes blank lines at either end. -/
def trimBlankEnds (ls : List String) : List String :=
  ((ls.dropWhile (fun l => strTrim l = "")).reverse.dropWhile
    (fun l => strTrim l = "")).reverse

/-- Parse of an audit line against `^tag\s*:\s*(.*)$` (with `strip()` of the
captured group); `read_tracker_file` lines 125-128 take the first matching
line.  The source matches the tag case-insensitively; written files always
carry it in canonical case. -/
def parseAuditLine (tag : String) (l : String) : Option String :=
  if strStarts l tag then
    match (l.data.drop tag.data.length).dropWhile pythonWS with
    | c :: r => if c = ':' then some (strTrim (String.mk r)) else none
    | [] => none
  else none

/-- Key-definition block parse (`read_tracker_file` lines 99-109): skip blank
lines and the `Key Definitions:` caption, keep lines whose key passes
`validate_key`, normalize the path. -/
def readKeysSection (sec : List String) : List (String × String) :=
  sec.foldl
    (fun m line =>
      let lc := strTrim line
      if lc = "" || strStarts lc "Key Definitions:" then m
      else
        match parseKV ':' lc with
        | some (k, v) => if validate_key k then dinsert m k (normalize_path v) else m
        | none => m)
    []

/-- Grid block parse (`read_tracker_file` lines 111-123): strip the block,
drop the `X ...` header if present, keep `key = row` lines whose key passes
`validate_key`. -/
def readGridSection (sec : List String) : List (String × String) :=
  let ls := trimBlankEnds sec
  let ls :=
    match ls with
    | l0 :: rest => if strStarts (strTrim l0) "X " || strTrim l0 = "X" then rest else ls
    | [] => ls
  ls.foldl
    (fun m line =>
      match parseKV '=' (strTrim line) with
      | some (k, v) => if validate_key k then dinsert m k v else m
      | none => m)
    []

/-- Embedding of `read_tracker_file` (lines 84-134) on the lines of an
existing file.  The missing-file and unreadable-file paths, which return the
same empty structure, are outside the pure model. -/
def read_tracker_file (ls : List String) : TrackerData where
  keys :=
    match takeSection ls "---KEY_DEFINITIONS_START---" "---KEY_DEFINITIONS_END---" with
    | some sec => readKeysSection sec
    | none => []
  grid :=
    match takeSection ls "---GRID_START---" "---GRID_END---" with
    | some sec => readGridSection sec
    | none => []
  last_key_edit := (ls.findSome? (parseAuditLine "last_KEY_edit")).getD ""
  last_grid_edit := (ls.findSome? (parseAuditLine "last_GRID_edit")).getD ""

/-- Inner copy loop of the grid rebuild in `update_tracker` (lines 816-822):
walk the decompressed old row with its old column indices and write each
surviving value at the new column index, skipping the diagonal. -/
def rebuildCopyRow (oldKeysList finalKeysList : List String) (oldRowKey : String)
    (row : List Char) (decompRow : List Char) : List Char :=
  decompRow.enum.foldl
    (fun r p =>
      if p.1 < oldKeysList.length then
        let oldColKey := oldKeysList.getD p.1 ""
        if oldColKey ∈ finalKeysList then
          let newColIdx := idxOf oldColKey finalKeysList
          let newRowIdx := idxOf oldRowKey finalKeysList
          if newRowIdx ≠ newColIdx then r.set newColIdx p.2 else r
        else r
      else r)
    row

/-- Grid-structure update of `update_tracker` (lines 801-824): initialize a
row of placeholders with the diagonal for every final key, then copy over
every surviving cell of the existing grid, row by row.  Rows whose key is
gone, whose decoded length disagrees with the old key count (or which fail
to decompress — unreachable under the identity codec model) are skipped.
The in-memory `temp_decomp_grid` dict, whose key set is exactly
`finalKeysList`, is embedded as a total function on `String`. -/
def update_tracker_rebuild_grid (existingGrid : List (String × String))
    (oldKeysList finalKeysList : List String) : String → List Char :=
  existingGrid.foldl
    (fun temp entry =>
      if entry.1 ∈ finalKeysList then
        let decompRow := decompress entry.2
        if decompRow.length = oldKeysList.length then
          fun k =>
            if k = entry.1 then
              rebuildCopyRow oldKeysList finalKeysList entry.1 (temp entry.1) decompRow
            else temp k
        else temp
      else temp)
    (fun rowKey => initRowAt finalKeysList.length (idxOf rowKey finalKeysList))

/-- One recorded suggestion conflict: the non-fatal warning logged at
lines 843-845 of `update_tracker`, identifying source, target, existing
value and proposed value. -/
structure SuggestionConflict where
  rowKey : String
  colKey : String
  existingChar : Char
  depChar : Char
  deriving Repr, DecidableEq

/-- Body of the suggestion-application inner loop (`update_tracker`
lines 834-845) for a single suggestion `(rowKey, colKey, depChar)` against
the current row: a placeholder cell is filled when the suggested symbol is
not itself the placeholder, a conflicting committed cell is kept and a
warning is recorded, everything else is a no-op. -/
def applyDep (finalKeysList : List String) (rowKey : String)
    (state : List Char × List SuggestionConflict) (colKey : String) (depChar : Char) :
    List Char × List SuggestionConflict :=
  if colKey ∈ finalKeysList then
    if rowKey = colKey then state
    else
      let colIdx := idxOf colKey finalKeysList
      let existingChar := state.1.getD colIdx ' '
      if existingChar = PLACEHOLDER_CHAR ∧ depChar ≠ PLACEHOLDER_CHAR then
        (state.1.set colIdx depChar, state.2)
      else if existingChar ≠ PLACEHOLDER_CHAR ∧ existingChar ≠ DIAGONAL_CHAR ∧
          existingChar ≠ depChar then
        (state.1, state.2 ++ [⟨rowKey, colKey, existingChar, depChar⟩])
      else state
  else state

/-- Suggestion application of `update_tracker` (lines 827-846).  The source's
`if not current_decomp_row: continue` guard is vacuous here: the rebuilt
grid was just initialized over exactly `finalKeysList`, so each row present
in the index map is a non-empty list. -/
def update_tracker_apply_suggestions (grid : String → List Char)
    (finalKeysList : List String)
    (suggestions : List (String × List (String × Char))) :
    (String → List Char) × List SuggestionConflict :=
  suggestions.foldl
    (fun acc entry =>
      if entry.1 ∈ finalKeysList then
        let res := entry.2.foldl
          (fun st dep => applyDep finalKeysList entry.1 st dep.1 dep.2)
          (acc.1 entry.1, acc.2)
        (fun k => if k = entry.1 then res.1 else acc.1 k, res.2)
      else acc)
    (grid, [])

/-- Final compression of the updated grid (`update_tracker` line 849): one
compressed row per final key. -/
def update_tracker_final_grid (g : String → List Char) (finalKeysList : List String) :
    List (String × String) :=
  finalKeysList.map (fun k => (k, compress (g k)))

/-- The `safe_decompress` helper of `_merge_grids` (lines 282-291), as the
lookup function of the dictionary it builds: a key maps to its decompressed
row when the row exists, the key belongs to that tracker's key list, and the
decoded length matches (decompression itself cannot fail under the identity
codec model). -/
def safeDecompressVal (gridData : List (String × String)) (keysList : List String)
    (k : String) : Option (List Char) :=
  match alookup gridData k with
  | none => none
  | some compressed =>
    if k ∈ keysList ∧ (decompress compressed).length = keysList.length then
      some (decompress compressed)
    else none

/-- Lookup of one input tracker's value for cell `(rowKey, colKey)` inside
`_merge_grids` (lines 303-310): defined when the row decompressed cleanly
and the column key has an index within the row. -/
def mergeSourceVal (decompMap : String → Option (List Char)) (keysList : List String)
    (rowKey colKey : String) : Option Char :=
  match decompMap rowKey with
  | some dr =>
    if colKey ∈ keysList then
      if idxOf colKey keysList < dr.length then some (dr.getD (idxOf colKey keysList) ' ')
      else none
    else none
  | none => none

/-- Conflict resolution of `_merge_grids` (lines 311-314): primary wins when
present and not the placeholder; otherwise secondary under the same
condition; otherwise placeholder. -/
def mergePick (primaryVal secondaryVal : Option Char) : Char :=
  match primaryVal with
  | some v =>
    if v ≠ PLACEHOLDER_CHAR then v
    else
      match secondaryVal with
      | some w => if w ≠ PLACEHOLDER_CHAR then w else PLACEHOLDER_CHAR
      | none => PLACEHOLDER_CHAR
  | none =>
    match secondaryVal with
    | some w => if w ≠ PLACEHOLDER_CHAR then w else PLACEHOLDER_CHAR
    | none => PLACEHOLDER_CHAR

/-- Embedding of `_merge_grids` (lines 270-317).  The source initializes one
dict row per merged key (diagonal at the enumeration position) and then
fills every off-diagonal cell in a nested loop indexed through
`key_to_merged_idx`; since the merged key list is the sort of a dict's keys
it is duplicate-free, so the per-row fold below is the same computation. -/
def _merge_grids (primaryGrid secondaryGrid : List (String × String))
    (primaryKeysList secondaryKeysList mergedKeysList : List String) :
    List (String × String) :=
  let mergedSize := mergedKeysList.length
  mergedKeysList.enum.map
    (fun rowEntry =>
      let rowKey := rowEntry.2
      let mergedRowIdx := idxOf rowKey mergedKeysList
      let row := mergedKeysList.foldl
        (fun r colKey =>
          let mergedColIdx := idxOf colKey mergedKeysList
          if mergedRowIdx = mergedColIdx then r
          else
            r.set mergedColIdx (mergePick
              (mergeSourceVal (safeDecompressVal primaryGrid primaryKeysList)
                primaryKeysList rowKey colKey)
              (mergeSourceVal (safeDecompressVal secondaryGrid secondaryKeysList)
                secondaryKeysList rowKey colKey)))
        (initRowAt mergedSize rowEntry.1)
      (rowKey, compress row))

/-- The `last_GRID_edit` audit text composed at line 362 of
`merge_trackers`; the source embeds the two file names and a wall-clock
timestamp, which are outside the pure model — the claims only ever allow
this field to differ. -/
def merged_grid_edit_message : String := "Merged"

/-- Embedding of `merge_trackers` (lines 320-377) on the parsed data of the
two input trackers.  Path handling, the pre-merge backup and cache
invalidation are filesystem effects outside the model; `none` models the
`return None` paths (both inputs empty, or the final write failing), in
which case nothing is written to the output path.  On success the result
carries the returned `merged_data` and the written file content. -/
def merge_trackers (primaryData secondaryData : TrackerData) :
    Option (TrackerData × WriteResult) :=
  let primaryKeys := primaryData.keys
  let secondaryKeys := secondaryData.keys
  if primaryKeys.isEmpty ∧ secondaryKeys.isEmpty then none
  else
    let mergedData :=
      if primaryKeys.isEmpty then secondaryData
      else if secondaryKeys.isEmpty then primaryData
      else
        let mergedKeysMap := dict_merge secondaryKeys primaryKeys
        let mergedKeysList := sort_key_strings_hierarchically (mergedKeysMap.map Prod.fst)
        let mergedGrid := _merge_grids primaryData.grid secondaryData.grid
          (sort_key_strings_hierarchically (primaryKeys.map Prod.fst))
          (sort_key_strings_hierarchically (secondaryKeys.map Prod.fst))
          mergedKeysList
        let mergedLastKeyEdit :=
          if primaryData.last_key_edit ≠ "" then primaryData.last_key_edit
          else secondaryData.last_key_edit
        ⟨mergedKeysMap, mergedGrid, mergedLastKeyEdit, merged_grid_edit_message⟩
    match write_tracker_file mergedData.keys mergedData.grid mergedData.last_key_edit
        mergedData.last_grid_edit with
    | some w => some (mergedData, w)
    | none => none

/-- Row re-initialization used by `remove_key_from_tracker` when a surviving
row's decoded length disagrees with the old key count (lines 1090-1094):
all placeholders at the new size, with the diagonal only when the row key
survives into the new order. -/
def removeReinitRow (finalSortedKeysList : List String) (oldRowKey : String) : List Char :=
  if oldRowKey ∈ finalSortedKeysList then
    initRowAt finalSortedKeysList.length (idxOf oldRowKey finalSortedKeysList)
  else List.replicate finalSortedKeysList.length PLACEHOLDER_CHAR

/-- Embedding of the data transformation of `remove_key_from_tracker`
(lines 1036-1110) on the parsed definitions and grid of the target tracker.
`none` models the early `return` taken when the key is absent from this
tracker's definitions: no changes are made and nothing is written.  On
success, the result is the `(final_key_defs, final_grid)` pair handed to
`write_tracker_file`.  The decompression-error branch (lines 1095-1099) is
unreachable under the identity codec model. -/
def remove_key_from_tracker (existingKeyDefs existingGrid : List (String × String))
    (keyToRemove : String) :
    Option (List (String × String) × List (String × String)) :=
  if keyToRemove ∈ existingKeyDefs.map Prod.fst then
    let finalKeyDefs := existingKeyDefs.filter (fun p => p.1 ≠ keyToRemove)
    let finalSorted := sort_key_strings_hierarchically (finalKeyDefs.map Prod.fst)
    let oldKeysList := sort_key_strings_hierarchically (existingKeyDefs.map Prod.fst)
    if keyToRemove ∈ oldKeysList then
      let idxToRemove := idxOf keyToRemove oldKeysList
      some (finalKeyDefs,
        existingGrid.foldl
          (fun fg entry =>
            if entry.1 ≠ keyToRemove then
              let decompRow := decompress entry.2
              if decompRow.length = oldKeysList.length then
                dinsert fg entry.1
                  (compress (decompRow.take idxToRemove ++ decompRow.drop (idxToRemove + 1)))
              else dinsert fg entry.1 (compress (removeReinitRow finalSorted entry.1))
            else fg)
          [])
    else
      some (finalKeyDefs, existingGrid.filter (fun p => p.1 ≠ keyToRemove))
  else none

/-- Insertion into a descending list of timestamps (models the
`backup_files.sort(key=..., reverse=True)` of `backup_tracker_file`). -/
def insertDesc (t : Nat) : List Nat → List Nat
  | [] => [t]
  | a :: r => if a ≤ t then t :: a :: r else a :: insertDesc t r

/-- Descending sort of backup timestamps. -/
def sortStampsDesc (l : List Nat) : List Nat := l.foldr insertDesc []

/-- Embedding of one `backup_tracker_file` call (lines 218-266) on the
multiset of parseable backup timestamps present in the backup directory for
one base filename.  `shutil.copy2` adds the new timestamp; cleanup sorts all
backups newest-first and attempts to delete everything beyond the first
two.  `deleteOk` models whether each `os.remove` succeeds; a failed delete
is logged and the file simply remains, and the function's return value (the
new backup's identity, modelling the returned backup path) does not depend
on cleanup at all. -/
def backup_tracker_file_step (stamps : List Nat) (newStamp : Nat)
    (deleteOk : Nat → Bool) : List Nat × Nat :=
  let backupFiles := sortStampsDesc (newStamp :: stamps)
  let kept :=
    if 2 < backupFiles.length then
      backupFiles.take 2 ++ (backupFiles.drop 2).filter (fun t => ¬ deleteOk t)
    else backupFiles
  (kept, newStamp)

/-- Backup-directory state after a sequence of backups taken at the given
timestamps (in chronological call order), with every delete succeeding. -/
def backupsAfter (ts : List Nat) : List Nat :=
  ts.foldl (fun st t => (backup_tracker_file_step st t (fun _ => true)).1) []

example : sort_key_strings_hierarchically ["2B", "1A", "1Aa"] = ["1A", "1Aa", "2B"] := by decide
example : strTrim "  a b\t" = "a b" := by decide
example : idxOf "x" ["a", "x", "x"] = 1 := by decide
example : dinsert [("a", 1), ("b", 2)] "a" 7 = [("a", 7), ("b", 2)] := by decide
example : dinsert [("a", 1)] "c" 3 = [("a", 1), ("c", 3)] := by decide
example : normalize_path "a\\b/c" = "a/b/c" := by decide
example : initRowAt 3 1 = ['p', 'o', 'p'] := by decide

/-! ## Helper lemmas: strings, rows, indices, association lists -/

theorem strMk_data (s : String) : String.mk s.data = s := rfl

theorem str_data_append (a b : String) : (a ++ b).data = a.data ++ b.data := rfl

theorem decompress_compress (l : List Char) : decompress (compress l) = l := rfl

theorem compress_decompress (s : String) : compress (decompress s) = s := rfl

theorem getD_set_eq_ite (l : List Char) (i j : Nat) (a d : Char) :
    (l.set i a).getD j d = if i = j ∧ j < l.length then a else l.getD j d := by
  induction l generalizing i j with
  | nil => simp [List.set]
  | cons b t ih =>
    cases i with
    | zero =>
      cases j with
      | zero => simp [List.getD]
      | succ j' => simp [List.getD]
    | succ i' =>
      cases j with
      | zero => simp [List.getD]
      | succ j' =>
        simp only [List.set, List.getD_cons_succ, ih i' j', List.length_cons]
        by_cases h : i' = j' ∧ j' < t.length
        · simp [h, h.1, h.2, Nat.succ_lt_succ h.2]
        · rw [if_neg h, if_neg]
          intro hc
          exact h ⟨by omega, by omega⟩

theorem getD_eq_of_lt (l : List Char) (j : Nat) (d : Char) (h : j < l.length) :
    ∃ c, l.getD j d = c ∧ l[j]? = some c := by
  induction l generalizing j with
  | nil => simp at h
  | cons b t ih =>
    cases j with
    | zero => exact ⟨b, rfl, by simp⟩
    | succ j' =>
      obtain ⟨c, hc1, hc2⟩ := ih j' (by simpa using Nat.lt_of_succ_lt_succ h)
      exact ⟨c, by simpa [List.getD] using hc1, by simpa using hc2⟩

theorem eq_of_getD_eq (l₁ l₂ : List Char) (d : Char) (hlen : l₁.length = l₂.length)
    (h : ∀ j, j < l₁.length → l₁.getD j d = l₂.getD j d) : l₁ = l₂ := by
  induction l₁ generalizing l₂ with
  | nil => cases l₂ with
    | nil => rfl
    | cons b t => simp at hlen
  | cons a t ih =>
    cases l₂ with
    | nil => simp at hlen
    | cons b u =>
      have h0 := h 0 (by simp)
      simp [List.getD] at h0
      have ht : t = u := by
        refine ih u (by simpa using hlen) ?_
        intro j hj
        have := h (j + 1) (by simpa using Nat.succ_lt_succ hj)
        simpa [List.getD] using this
      rw [h0, ht]

theorem getD_replicate_ite (n j : Nat) (c d : Char) :
    (List.replicate n c).getD j d = if j < n then c else d := by
  induction n generalizing j with
  | zero => simp [List.getD]
  | succ n' ih =>
    cases j with
    | zero => simp [List.replicate, List.getD]
    | succ j' =>
      simp only [List.replicate, List.getD_cons_succ, ih j']
      by_cases h : j' < n'
      · simp [h, Nat.succ_lt_succ h]
      · rw [if_neg h, if_neg (by omega)]

theorem initRowAt_length (n i : Nat) : (initRowAt n i).length = n := by
  simp [initRowAt]

theorem initRowAt_getD (n i j : Nat) (d : Char) (h : j < n) :
    (initRowAt n i).getD j d = if i = j then DIAGONAL_CHAR else PLACEHOLDER_CHAR := by
  rw [initRowAt, getD_set_eq_ite]
  by_cases hij : i = j
  · simp [hij, h]
  · simp [hij, getD_replicate_ite, h]

theorem idxOf_lt_length {k : String} {l : List String} (h : k ∈ l) :
    idxOf k l < l.length := by
  induction l with
  | nil => simp at h
  | cons a t ih =>
    by_cases ha : a = k
    · simp [idxOf, ha]
    · have hk : k ∈ t := by
        rcases List.mem_cons.mp h with h1 | h1
        · exact absurd h1.symm ha
        · exact h1
      simpa [idxOf, ha] using Nat.succ_lt_succ (ih hk)

theorem getD_idxOf {k : String} {l : List String} (h : k ∈ l) (d : String) :
    l.getD (idxOf k l) d = k := by
  induction l with
  | nil => simp at h
  | cons a t ih =>
    by_cases ha : a = k
    · simp [idxOf, ha, List.getD]
    · have hk : k ∈ t := by
        rcases List.mem_cons.mp h with h1 | h1
        · exact absurd h1.symm ha
        · exact h1
      simpa [idxOf, ha, List.getD] using ih hk

theorem idxOf_eq_length {k : String} {l : List String} (h : k ∉ l) :
    idxOf k l = l.length := by
  induction l with
  | nil => rfl
  | cons a t ih =>
    have ha : a ≠ k := fun hc => h (hc ▸ List.mem_cons_self a t)
    have ht : k ∉ t := fun hc => h (List.mem_cons_of_mem a hc)
    simp [idxOf, ha, ih ht]

theorem idxOf_inj {a b : String} {l : List String} (ha : a ∈ l) (hb : b ∈ l)
    (h : idxOf a l = idxOf b l) : a = b := by
  have h1 := getD_idxOf ha ""
  have h2 := getD_idxOf hb ""
  rw [← h1, ← h2, h]

theorem getD_mem {l : List String} {i : Nat} (hi : i < l.length) (d : String) :
    l.getD i d ∈ l := by
  induction l generalizing i with
  | nil => simp at hi
  | cons a t ih =>
    cases i with
    | zero => simp [List.getD]
    | succ i' =>
      have hi' : i' < t.length := by simpa using Nat.lt_of_succ_lt_succ hi
      have := ih hi'
      simp only [List.getD_cons_succ]
      exact List.mem_cons_of_mem a this

theorem idxOf_getD_nodup {l : List String} (hnd : l.Nodup) {i : Nat}
    (hi : i < l.length) (d : String) : idxOf (l.getD i d) l = i := by
  induction l generalizing i with
  | nil => simp at hi
  | cons a t ih =>
    cases i with
    | zero => simp [idxOf, List.getD]
    | succ i' =>
      have hi' : i' < t.length := by simpa using Nat.lt_of_succ_lt_succ hi
      have hmem : t.getD i' d ∈ t := getD_mem hi' d
      have hne : a ≠ t.getD i' d := by
        intro hc
        exact (List.nodup_cons.mp hnd).1 (hc ▸ hmem)
      simp only [List.getD_cons_succ, idxOf, if_neg hne]
      rw [ih (List.nodup_cons.mp hnd).2 hi']

theorem alookup_eq_none_iff {α : Type} {l : List (String × α)} {q : String} :
    alookup l q = none ↔ q ∉ l.map Prod.fst := by
  induction l with
  | nil => simp [alookup]
  | cons e t ih =>
    obtain ⟨k, v⟩ := e
    by_cases hk : k = q
    · simp [alookup, hk]
    · simp [alookup, hk, ih, Ne.symm hk]

theorem alookup_mem {α : Type} {l : List (String × α)} {q : String} {v : α}
    (h : alookup l q = some v) : (q, v) ∈ l := by
  induction l with
  | nil => simp [alookup] at h
  | cons e t ih =>
    obtain ⟨k, w⟩ := e
    by_cases hk : k = q
    · rw [alookup, if_pos hk] at h
      obtain rfl : w = v := Option.some.inj h
      exact hk ▸ List.mem_cons_self _ _
    · rw [alookup, if_neg hk] at h
      exact List.mem_cons_of_mem _ (ih h)

theorem alookup_map_self {α : Type} (ks : List String) (f : String → α) (q : String) :
    alookup (ks.map (fun k => (k, f k))) q = if q ∈ ks then some (f q) else none := by
  induction ks with
  | nil => simp [alookup]
  | cons a t ih =>
    by_cases ha : a = q
    · subst ha; simp [alookup]
    · simp [alookup, ha, ih, Ne.symm ha]

theorem alookup_dinsert_self {α : Type} (d : List (String × α)) (k : String) (v : α) :
    alookup (dinsert d k v) k = some v := by
  induction d with
  | nil => simp [dinsert, alookup]
  | cons e t ih =>
    by_cases he : e.1 = k
    · simp [dinsert, he, alookup]
    · simp [dinsert, he, alookup, ih]

theorem alookup_dinsert_ne {α : Type} (d : List (String × α)) {k' k : String} (v : α)
    (h : k' ≠ k) : alookup (dinsert d k' v) k = alookup d k := by
  induction d with
  | nil => simp [dinsert, alookup, h]
  | cons e t ih =>
    by_cases he : e.1 = k'
    · have hek : ¬ e.1 = k := fun hc => h (he ▸ hc ▸ rfl)
      simp [dinsert, he, alookup, hek, h]
    · by_cases hek : e.1 = k
      · simp [dinsert, he, alookup, hek, Ne.symm h]
      · simp [dinsert, he, alookup, hek, ih]

theorem dinsert_of_notin {α : Type} {d : List (String × α)} {k : String} (v : α)
    (h : k ∉ d.map Prod.fst) : dinsert d k v = d ++ [(k, v)] := by
  induction d with
  | nil => rfl
  | cons e t ih =>
    have he : ¬ e.1 = k := by
      intro hc
      exact h (by simp [hc])
    have ht : k ∉ t.map Prod.fst := by
      intro hc
      exact h (by simp [hc])
    simp [dinsert, he, ih ht]

theorem notin_map_fst_dinsert {α : Type} {d : List (String × α)} {k q : String} (v : α)
    (hq : q ∉ d.map Prod.fst) (hne : k ≠ q) : q ∉ (dinsert d k v).map Prod.fst := by
  induction d with
  | nil => simpa [dinsert] using fun hc => hne hc.symm
  | cons e t ih =>
    have he : ¬ e.1 = q := by
      intro hc
      exact hq (by simp [hc])
    have ht : q ∉ t.map Prod.fst := by
      intro hc
      exact hq (by simp [hc])
    by_cases hk : e.1 = k
    · simp only [dinsert, if_pos hk, List.map_cons]
      intro hc
      rcases List.mem_cons.mp hc with h1 | h1
      · exact hne h1.symm
      · exact ht h1
    · simp only [dinsert, if_neg hk, List.map_cons]
      intro hc
      rcases List.mem_cons.mp hc with h1 | h1
      · exact he h1.symm
      · exact ih ht h1

theorem dinsert_of_mem_nodup {α : Type} {d : List (String × α)} {k : String} {v : α}
    (hnd : (d.map Prod.fst).Nodup) (h : (k, v) ∈ d) : dinsert d k v = d := by
  induction d with
  | nil => simp at h
  | cons e t ih =>
    rcases List.mem_cons.mp h with rfl | hm
    · simp [dinsert]
    · have he : ¬ e.1 = k := by
        intro hc
        have : k ∈ t.map Prod.fst := List.mem_map_of_mem Prod.fst hm
        rw [List.map_cons, List.nodup_cons] at hnd
        exact hnd.1 (hc ▸ this)
      simp [dinsert, he, ih (by rw [List.map_cons, List.nodup_cons] at hnd; exact hnd.2) hm]

theorem sort_perm (l : List String) :
    List.Perm (sort_key_strings_hierarchically l) l :=
  List.perm_insertionSort _ l

theorem mem_sort {k : String} {l : List String} :
    k ∈ sort_key_strings_hierarchically l ↔ k ∈ l :=
  (sort_perm l).mem_iff

theorem sort_length (l : List String) :
    (sort_key_strings_hierarchically l).length = l.length :=
  (sort_perm l).length_eq

theorem sort_nodup {l : List String} (h : l.Nodup) :
    (sort_key_strings_hierarchically l).Nodup :=
  (sort_perm l).nodup_iff.mpr h

theorem foldl_fun_congr {γ β : Type} (f g : γ → β → γ) (l : List β) (init : γ)
    (h : ∀ acc p, p ∈ l → f acc p = g acc p) : l.foldl f init = l.foldl g init := by
  induction l generalizing init with
  | nil => rfl
  | cons p t ih =>
    rw [List.foldl_cons, List.foldl_cons, h init p (List.mem_cons_self p t)]
    exact ih _ (fun acc q hq => h acc q (List.mem_cons_of_mem p hq))

theorem foldl_ite_set_length {β : Type} (C : β → Prop) [DecidablePred C]
    (tgt : β → Nat) (val : β → Char) (l : List β) (init : List Char) :
    (l.foldl (fun r p => if C p then r.set (tgt p) (val p) else r) init).length
      = init.length := by
  induction l generalizing init with
  | nil => rfl
  | cons p t ih =>
    rw [List.foldl_cons]
    by_cases hC : C p
    · rw [if_pos hC, ih]
      exact List.length_set ..
    · rw [if_neg hC, ih]

theorem foldl_ite_set_getD_nohit {β : Type} (C : β → Prop) [DecidablePred C]
    (tgt : β → Nat) (val : β → Char) (l : List β) (init : List Char) (j : Nat) (d : Char)
    (hj : ∀ p ∈ l, C p → tgt p ≠ j) :
    (l.foldl (fun r p => if C p then r.set (tgt p) (val p) else r) init).getD j d
      = init.getD j d := by
  induction l generalizing init with
  | nil => rfl
  | cons p t ih =>
    rw [List.foldl_cons]
    by_cases hC : C p
    · rw [if_pos hC]
      rw [ih _ (fun q hq => hj q (List.mem_cons_of_mem p hq)), getD_set_eq_ite,
        if_neg]
      intro hc
      exact hj p (List.mem_cons_self p t) hC hc.1
    · rw [if_neg hC]
      exact ih _ (fun q hq => hj q (List.mem_cons_of_mem p hq))

theorem foldl_ite_set_getD_hit {β : Type} (C : β → Prop) [DecidablePred C]
    (tgt : β → Nat) (val : β → Char) (l : List β) (init : List Char) (j : Nat) (d : Char)
    (q : β) (hq : q ∈ l) (hC : C q) (htgt : tgt q = j) (hjlen : j < init.length)
    (huniq : ∀ p ∈ l, C p → tgt p = j → val p = val q) :
    (l.foldl (fun r p => if C p then r.set (tgt p) (val p) else r) init).getD j d
      = val q := by
  induction l generalizing init q with
  | nil => simp at hq
  | cons p t ih =>
    rw [List.foldl_cons]
    by_cases hcase : C p ∧ tgt p = j
    · rw [if_pos hcase.1]
      have hvp : val p = val q := huniq p (List.mem_cons_self p t) hcase.1 hcase.2
      by_cases hex : ∃ r ∈ t, C r ∧ tgt r = j
      · obtain ⟨r, hrm, hrC, hrt⟩ := hex
        have hval : ∀ s ∈ t, C s → tgt s = j → val s = val r := by
          intro s hs hsC hst
          rw [huniq s (List.mem_cons_of_mem p hs) hsC hst,
            ← huniq r (List.mem_cons_of_mem p hrm) hrC hrt]
        rw [ih _ r hrm hrC hrt (by rw [List.length_set]; exact hjlen) hval,
          huniq r (List.mem_cons_of_mem p hrm) hrC hrt]
      · push_neg at hex
        rw [foldl_ite_set_getD_nohit C tgt val t _ j d
          (fun s hs hsC => hex s hs hsC), getD_set_eq_ite, hcase.2,
          if_pos ⟨rfl, hjlen⟩, hvp]
    · have hqt : q ∈ t := by
        rcases List.mem_cons.mp hq with rfl | hm
        · exact absurd ⟨hC, htgt⟩ hcase
        · exact hm
      by_cases hC' : C p
      · rw [if_pos hC']
        exact ih _ q hqt hC htgt (by rw [List.length_set]; exact hjlen)
          (fun s hs hsC hst => huniq s (List.mem_cons_of_mem p hs) hsC hst)
      · rw [if_neg hC']
        exact ih _ q hqt hC htgt hjlen
          (fun s hs hsC hst => huniq s (List.mem_cons_of_mem p hs) hsC hst)

theorem mem_enumFrom_props {l : List Char} {n : Nat} {p : Nat × Char}
    (h : p ∈ l.enumFrom n) :
    n ≤ p.1 ∧ p.1 - n < l.length ∧ l.getD (p.1 - n) ' ' = p.2 := by
  induction l generalizing n with
  | nil => simp at h
  | cons a t ih =>
    rw [List.enumFrom] at h
    rcases List.mem_cons.mp h with rfl | hm
    · exact ⟨Nat.le_refl n, by simp, by simp [List.getD]⟩
    · obtain ⟨h1, h2, h3⟩ := ih hm
      refine ⟨Nat.le_of_succ_le h1, ?_, ?_⟩
      · have : p.1 - n = (p.1 - (n + 1)) + 1 := by omega
        rw [this]
        simpa using Nat.succ_lt_succ h2
      · have : p.1 - n = (p.1 - (n + 1)) + 1 := by omega
        rw [this, List.getD_cons_succ]
        exact h3

theorem enumFrom_mem (l : List Char) (n i : Nat) (hi : i < l.length) :
    (n + i, l.getD i ' ') ∈ l.enumFrom n := by
  induction l generalizing n i with
  | nil => simp at hi
  | cons a t ih =>
    cases i with
    | zero => simp [List.enumFrom, List.getD]
    | succ i' =>
      have hi' : i' < t.length := by simpa using Nat.lt_of_succ_lt_succ hi
      rw [List.enumFrom]
      refine List.mem_cons_of_mem _ ?_
      have := ih (n + 1) i' hi'
      have harith : n + 1 + i' = n + (i' + 1) := by omega
      rw [harith] at this
      simpa [List.getD] using this

theorem enum_mem (l : List Char) (i : Nat) (hi : i < l.length) :
    (i, l.getD i ' ') ∈ l.enum := by
  have := enumFrom_mem l 0 i hi
  simpa [List.enum] using this

theorem mem_enum_props {l : List Char} {p : Nat × Char} (h : p ∈ l.enum) :
    p.1 < l.length ∧ l.getD p.1 ' ' = p.2 := by
  have h0 := mem_enumFrom_props (n := 0) (by simpa [List.enum] using h)
  rw [Nat.sub_zero] at h0
  exact ⟨h0.2.1, h0.2.2⟩

theorem rebuildCopyRow_eq_generic (old final : List String) (rk : String)
    (row d : List Char) :
    rebuildCopyRow old final rk row d =
      d.enum.foldl
        (fun r p =>
          if p.1 < old.length ∧ old.getD p.1 "" ∈ final ∧
              idxOf rk final ≠ idxOf (old.getD p.1 "") final then
            r.set (idxOf (old.getD p.1 "") final) p.2
          else r)
        row := by
  rw [rebuildCopyRow]
  apply foldl_fun_congr
  intro acc p _
  by_cases h1 : p.1 < old.length
  · dsimp only
    split_ifs with h2 h3 <;> first | rfl | tauto
  · simp [h1]

theorem rebuildCopyRow_length (old final : List String) (rk : String)
    (row d : List Char) :
    (rebuildCopyRow old final rk row d).length = row.length := by
  rw [rebuildCopyRow_eq_generic]
  exact foldl_ite_set_length ..

theorem rebuildCopyRow_getD_copy (old final : List String) (rk : String)
    (row d : List Char) (hndold : old.Nodup) (hlend : d.length = old.length)
    (c : String) (hco : c ∈ old) (hcf : c ∈ final) (hrf : rk ∈ final) (hrc : rk ≠ c)
    (hjlen : idxOf c final < row.length) :
    (rebuildCopyRow old final rk row d).getD (idxOf c final) ' '
      = d.getD (idxOf c old) ' ' := by
  rw [rebuildCopyRow_eq_generic]
  have hio : idxOf c old < old.length := idxOf_lt_length hco
  have hiod : idxOf c old < d.length := by rw [hlend]; exact hio
  refine foldl_ite_set_getD_hit _ _ _ _ _ _ _
    (idxOf c old, d.getD (idxOf c old) ' ') (enum_mem d _ hiod) ?_ ?_ hjlen ?_
  · refine ⟨hio, ?_, ?_⟩
    · rw [getD_idxOf hco]
      exact hcf
    · rw [getD_idxOf hco]
      intro hc
      exact hrc (idxOf_inj hrf hcf hc)
  · rw [getD_idxOf hco]
  · intro p hp hC htgt
    obtain ⟨hp1, hp2⟩ := mem_enum_props hp
    have hmemo : old.getD p.1 "" ∈ old := getD_mem hC.1 ""
    have heq : old.getD p.1 "" = c := idxOf_inj hC.2.1 hcf htgt
    have : idxOf (old.getD p.1 "") old = p.1 := idxOf_getD_nodup hndold hC.1 ""
    rw [heq] at this
    rw [← hp2, ← this]

theorem rebuildCopyRow_getD_diag (old final : List String) (rk : String)
    (row d : List Char) :
    (rebuildCopyRow old final rk row d).getD (idxOf rk final) ' '
      = row.getD (idxOf rk final) ' ' := by
  rw [rebuildCopyRow_eq_generic]
  refine foldl_ite_set_getD_nohit _ _ _ _ _ _ _ ?_
  intro p _ hC hc
  exact hC.2.2 hc.symm

theorem rebuild_fold_notin (existingGrid : List (String × String))
    (oldKeysList finalKeysList : List String) (temp : String → List Char) (r : String)
    (h : r ∉ existingGrid.map Prod.fst) :
    existingGrid.foldl
      (fun temp entry =>
        if entry.1 ∈ finalKeysList then
          let decompRow := decompress entry.2
          if decompRow.length = oldKeysList.length then
            fun k =>
              if k = entry.1 then
                rebuildCopyRow oldKeysList finalKeysList entry.1 (temp entry.1) decompRow
              else temp k
          else temp
        else temp)
      temp r = temp r := by
  induction existingGrid generalizing temp with
  | nil => rfl
  | cons e t ih =>
    have hne : r ≠ e.1 := by
      intro hc
      exact h (by simp [hc])
    have ht : r ∉ t.map Prod.fst := by
      intro hc
      exact h (by simp [hc])
    rw [List.foldl_cons]
    by_cases h1 : e.1 ∈ finalKeysList
    · by_cases h2 : (decompress e.2).length = oldKeysList.length
      · simp only [if_pos h1, if_pos h2]
        rw [ih _ ht]
        simp [hne]
      · simp only [if_pos h1, if_neg h2]
        exact ih _ ht
    · simp only [if_neg h1]
      exact ih _ ht

theorem rebuild_eval_of_notin (existingGrid : List (String × String))
    (oldKeysList finalKeysList : List String) (r : String)
    (h : r ∉ existingGrid.map Prod.fst) :
    update_tracker_rebuild_grid existingGrid oldKeysList finalKeysList r
      = initRowAt finalKeysList.length (idxOf r finalKeysList) := by
  rw [update_tracker_rebuild_grid]
  exact rebuild_fold_notin existingGrid oldKeysList finalKeysList _ r h

theorem rebuild_fold_mem (existingGrid : List (String × String))
    (oldKeysList finalKeysList : List String) (temp : String → List Char) (r : String)
    (comp : String) (hnd : (existingGrid.map Prod.fst).Nodup)
    (hl : alookup existingGrid r = some comp) :
    existingGrid.foldl
      (fun temp entry =>
        if entry.1 ∈ finalKeysList then
          let decompRow := decompress entry.2
          if decompRow.length = oldKeysList.length then
            fun k =>
              if k = entry.1 then
                rebuildCopyRow oldKeysList finalKeysList entry.1 (temp entry.1) decompRow
              else temp k
          else temp
        else temp)
      temp r =
      if r ∈ finalKeysList ∧ (decompress comp).length = oldKeysList.length then
        rebuildCopyRow oldKeysList finalKeysList r (temp r) (decompress comp)
      else temp r := by
  induction existingGrid generalizing temp with
  | nil => simp [alookup] at hl
  | cons e t ih =>
    rw [List.map_cons, List.nodup_cons] at hnd
    rw [List.foldl_cons]
    by_cases he : e.1 = r
    · rw [alookup, if_pos he] at hl
      obtain rfl : e.2 = comp := Option.some.inj hl
      have hrt : r ∉ t.map Prod.fst := he ▸ hnd.1
      by_cases h1 : e.1 ∈ finalKeysList
      · by_cases h2 : (decompress e.2).length = oldKeysList.length
        · simp only [if_pos h1, if_pos h2]
          rw [rebuild_fold_notin t oldKeysList finalKeysList _ r hrt]
          subst he
          simp [h1, h2]
        · simp only [if_pos h1, if_neg h2]
          rw [rebuild_fold_notin t oldKeysList finalKeysList _ r hrt,
            if_neg (fun hc => h2 hc.2)]
      · simp only [if_neg h1]
        rw [rebuild_fold_notin t oldKeysList finalKeysList _ r hrt,
          if_neg (fun hc => h1 (he ▸ hc.1))]
    · rw [alookup, if_neg he] at hl
      by_cases h1 : e.1 ∈ finalKeysList
      · by_cases h2 : (decompress e.2).length = oldKeysList.length
        · simp only [if_pos h1, if_pos h2]
          rw [ih _ hnd.2 hl]
          have hre : ¬ r = e.1 := fun hc => he hc.symm
          simp [hre]
        · simp only [if_pos h1, if_neg h2]
          exact ih _ hnd.2 hl
      · simp only [if_neg h1]
        exact ih _ hnd.2 hl

theorem rebuild_eval_of_mem (existingGrid : List (String × String))
    (oldKeysList finalKeysList : List String) (r : String) (comp : String)
    (hnd : (existingGrid.map Prod.fst).Nodup)
    (hl : alookup existingGrid r = some comp) :
    update_tracker_rebuild_grid existingGrid oldKeysList finalKeysList r =
      if r ∈ finalKeysList ∧ (decompress comp).length = oldKeysList.length then
        rebuildCopyRow oldKeysList finalKeysList r
          (initRowAt finalKeysList.length (idxOf r finalKeysList)) (decompress comp)
      else initRowAt finalKeysList.length (idxOf r finalKeysList) := by
  rw [update_tracker_rebuild_grid]
  exact rebuild_fold_mem existingGrid oldKeysList finalKeysList _ r comp hnd hl

theorem applyDep_preserve (finalKeysList : List String) (rowKey : String)
    (st : List Char × List SuggestionConflict) (colKey : String) (depChar : Char)
    (j : Nat) (v : Char) (hv : v ≠ PLACEHOLDER_CHAR) (h : st.1.getD j ' ' = v) :
    (applyDep finalKeysList rowKey st colKey depChar).1.getD j ' ' = v := by
  rw [applyDep]
  by_cases h1 : colKey ∈ finalKeysList
  · rw [if_pos h1]
    by_cases h2 : rowKey = colKey
    · rw [if_pos h2]; exact h
    · rw [if_neg h2]
      by_cases h3 : st.1.getD (idxOf colKey finalKeysList) ' ' = PLACEHOLDER_CHAR ∧
          depChar ≠ PLACEHOLDER_CHAR
      · rw [if_pos h3]
        have hj : idxOf colKey finalKeysList ≠ j := by
          intro hc
          rw [hc, h] at h3
          exact hv h3.1
        rw [getD_set_eq_ite, if_neg (fun hc => hj hc.1)]
        exact h
      · rw [if_neg h3]
        by_cases h4 : st.1.getD (idxOf colKey finalKeysList) ' ' ≠ PLACEHOLDER_CHAR ∧
            st.1.getD (idxOf colKey finalKeysList) ' ' ≠ DIAGONAL_CHAR ∧
            st.1.getD (idxOf colKey finalKeysList) ' ' ≠ depChar
        · rw [if_pos h4]; exact h
        · rw [if_neg h4]; exact h
  · rw [if_neg h1]; exact h

theorem applyDep_fold_preserve (finalKeysList : List String) (rowKey : String)
    (deps : List (String × Char)) (st : List Char × List SuggestionConflict)
    (j : Nat) (v : Char) (hv : v ≠ PLACEHOLDER_CHAR) (h : st.1.getD j ' ' = v) :
    (deps.foldl (fun st dep => applyDep finalKeysList rowKey st dep.1 dep.2) st).1.getD j ' '
      = v := by
  induction deps generalizing st with
  | nil => exact h
  | cons dep t ih =>
    rw [List.foldl_cons]
    exact ih _ (applyDep_preserve finalKeysList rowKey st dep.1 dep.2 j v hv h)

theorem apply_suggestions_monotone (grid : String → List Char)
    (finalKeysList : List String)
    (suggestions : List (String × List (String × Char)))
    (k : String) (j : Nat) (v : Char) (hv : v ≠ PLACEHOLDER_CHAR)
    (h : (grid k).getD j ' ' = v) :
    ((update_tracker_apply_suggestions grid finalKeysList suggestions).1 k).getD j ' '
      = v := by
  rw [update_tracker_apply_suggestions]
  suffices hgen : ∀ (acc : (String → List Char) × List SuggestionConflict),
      (acc.1 k).getD j ' ' = v →
      ((suggestions.foldl
        (fun (acc : (String → List Char) × List SuggestionConflict)
            (entry : String × List (String × Char)) =>
          if entry.1 ∈ finalKeysList then
            let res := entry.2.foldl
              (fun st dep => applyDep finalKeysList entry.1 st dep.1 dep.2)
              (acc.1 entry.1, acc.2)
            (fun q => if q = entry.1 then res.1 else acc.1 q, res.2)
          else acc)
        acc).1 k).getD j ' ' = v by
    exact hgen (grid, []) h
  intro acc hacc
  induction suggestions generalizing acc with
  | nil => exact hacc
  | cons entry t ih =>
    rw [List.foldl_cons]
    by_cases h1 : entry.1 ∈ finalKeysList
    · rw [if_pos h1]
      apply ih
      dsimp only
      by_cases hk : k = entry.1
      · rw [if_pos hk]
        subst hk
        exact applyDep_fold_preserve finalKeysList entry.1 entry.2
          (acc.1 entry.1, acc.2) j v hv hacc
      · rw [if_neg hk]
        exact hacc
    · rw [if_neg h1]
      exact ih acc hacc

theorem alookup_enumFrom_map {α : Type} (mk : List String) (n : Nat)
    (f : Nat × String → α) (r : String) (hnd : mk.Nodup) (hr : r ∈ mk) :
    alookup ((mk.enumFrom n).map (fun e => (e.2, f e))) r
      = some (f (n + idxOf r mk, r)) := by
  induction mk generalizing n with
  | nil => simp at hr
  | cons a t ih =>
    rw [List.enumFrom, List.map_cons]
    by_cases ha : a = r
    · subst ha
      simp [alookup, idxOf]
    · rw [alookup, if_neg ha]
      rw [List.nodup_cons] at hnd
      have hrt : r ∈ t := by
        rcases List.mem_cons.mp hr with h1 | h1
        · exact absurd h1.symm ha
        · exact h1
      rw [ih (n + 1) hnd.2 hrt, idxOf, if_neg ha]
      have : n + 1 + idxOf r t = n + (idxOf r t + 1) := by omega
      rw [this]

theorem merge_grids_lookup (pg sg : List (String × String)) (pk sk mk : List String)
    (r : String) (hnd : mk.Nodup) (hr : r ∈ mk) :
    alookup (_merge_grids pg sg pk sk mk) r =
      some (compress (mk.foldl
        (fun row colKey =>
          if idxOf r mk = idxOf colKey mk then row
          else row.set (idxOf colKey mk)
            (mergePick (mergeSourceVal (safeDecompressVal pg pk) pk r colKey)
              (mergeSourceVal (safeDecompressVal sg sk) sk r colKey)))
        (initRowAt mk.length (idxOf r mk)))) := by
  rw [_merge_grids]
  have henum : mk.enum = mk.enumFrom 0 := rfl
  rw [henum]
  have := alookup_enumFrom_map mk 0
    (fun rowEntry => compress (mk.foldl
      (fun row colKey =>
        if idxOf rowEntry.2 mk = idxOf colKey mk then row
        else row.set (idxOf colKey mk)
          (mergePick (mergeSourceVal (safeDecompressVal pg pk) pk rowEntry.2 colKey)
            (mergeSourceVal (safeDecompressVal sg sk) sk rowEntry.2 colKey)))
      (initRowAt mk.length rowEntry.1))) r hnd hr
  simpa using this

theorem merge_row_fold_eq_generic (pg sg : List (String × String))
    (pk sk mk : List String) (r : String) (init : List Char) :
    mk.foldl
      (fun row colKey =>
        if idxOf r mk = idxOf colKey mk then row
        else row.set (idxOf colKey mk)
          (mergePick (mergeSourceVal (safeDecompressVal pg pk) pk r colKey)
            (mergeSourceVal (safeDecompressVal sg sk) sk r colKey)))
      init =
    mk.foldl
      (fun row colKey =>
        if ¬ (idxOf r mk = idxOf colKey mk) then
          row.set (idxOf colKey mk)
            (mergePick (mergeSourceVal (safeDecompressVal pg pk) pk r colKey)
              (mergeSourceVal (safeDecompressVal sg sk) sk r colKey))
        else row)
      init := by
  apply foldl_fun_congr
  intro acc p _
  exact (ite_not _ _ _).symm

theorem merge_row_length (pg sg : List (String × String)) (pk sk mk : List String)
    (r : String) (init : List Char) :
    (mk.foldl
      (fun row colKey =>
        if idxOf r mk = idxOf colKey mk then row
        else row.set (idxOf colKey mk)
          (mergePick (mergeSourceVal (safeDecompressVal pg pk) pk r colKey)
            (mergeSourceVal (safeDecompressVal sg sk) sk r colKey)))
      init).length = init.length := by
  rw [merge_row_fold_eq_generic]
  exact foldl_ite_set_length ..

theorem merge_row_getD_off (pg sg : List (String × String)) (pk sk mk : List String)
    (r c : String) (init : List Char) (hc : c ∈ mk) (hr : r ∈ mk) (hrc : r ≠ c)
    (hjlen : idxOf c mk < init.length) :
    (mk.foldl
      (fun row colKey =>
        if idxOf r mk = idxOf colKey mk then row
        else row.set (idxOf colKey mk)
          (mergePick (mergeSourceVal (safeDecompressVal pg pk) pk r colKey)
            (mergeSourceVal (safeDecompressVal sg sk) sk r colKey)))
      init).getD (idxOf c mk) ' ' =
      mergePick (mergeSourceVal (safeDecompressVal pg pk) pk r c)
        (mergeSourceVal (safeDecompressVal sg sk) sk r c) := by
  rw [merge_row_fold_eq_generic]
  refine foldl_ite_set_getD_hit _ _ _ _ _ _ _ c hc ?_ rfl hjlen ?_
  · intro hcon
    exact hrc (idxOf_inj hr hc hcon)
  · intro p hp _ htgt
    rw [idxOf_inj hp hc htgt]

theorem merge_row_getD_diag (pg sg : List (String × String)) (pk sk mk : List String)
    (r : String) (init : List Char) :
    (mk.foldl
      (fun row colKey =>
        if idxOf r mk = idxOf colKey mk then row
        else row.set (idxOf colKey mk)
          (mergePick (mergeSourceVal (safeDecompressVal pg pk) pk r colKey)
            (mergeSourceVal (safeDecompressVal sg sk) sk r colKey)))
      init).getD (idxOf r mk) ' ' = init.getD (idxOf r mk) ' ' := by
  rw [merge_row_fold_eq_generic]
  refine foldl_ite_set_getD_nohit _ _ _ _ _ _ _ ?_
  intro p _ hC hcon
  exact hC hcon.symm

/-! ## Claim theorems -/

/-- C7: if grid validation fails for the data passed to `write_tracker_file`,
the call returns failure and produces no file content at all — in the source
the `return False` at line 166 precedes any `open(..., 'w')`, so the tracker
file on disk is untouched.  (`validate_grid` is modelled from the spec, see
its doc comment.) -/
theorem C7_write_refused_on_validation_failure
    (keyDefs grid : List (String × String)) (lastKeyEdit lastGridEdit : String)
    (h : validate_grid grid
      (sort_key_strings_hierarchically (keyDefs.map Prod.fst)) = false) :
    write_tracker_file keyDefs grid lastKeyEdit lastGridEdit = none := by
  rw [write_tracker_file]
  simp [h]

/-- Witness for C7 at a concrete input: a grid row keyed by a key that is
not among the definitions fails validation, and the write returns `none`. -/
theorem C7_write_refused_witness :
    validate_grid [("2B", "o")]
        (sort_key_strings_hierarchically ((([("1A", "/a")] : List (String × String))).map Prod.fst)) = false ∧
    write_tracker_file [("1A", "/a")] [("2B", "o")] "" "" = none :=
  ⟨by decide, C7_write_refused_on_validation_failure [("1A", "/a")] [("2B", "o")] "" "" (by decide)⟩

/-- C1: for a suggestion `(source, target, symbol)` applied by
`update_tracker` with both keys in the final grid and `source ≠ target`:
a placeholder cell is set to exactly the suggested symbol (part 1); a cell
holding a committed symbol different from the suggestion is left unchanged
and a conflict warning is recorded instead of an exception being raised
(part 2, the function being total); and the whole suggestion pass never
moves any non-placeholder cell anywhere — committed cells are bitwise
preserved (part 3). -/
theorem C1_suggestion_application :
    (∀ (finalKeysList : List String) (rowKey colKey : String) (depChar : Char)
        (row : List Char) (ws : List SuggestionConflict),
        colKey ∈ finalKeysList → rowKey ≠ colKey →
        row.length = finalKeysList.length →
        row.getD (idxOf colKey finalKeysList) ' ' = PLACEHOLDER_CHAR →
        (applyDep finalKeysList rowKey (row, ws) colKey depChar).1.getD
          (idxOf colKey finalKeysList) ' ' = depChar) ∧
    (∀ (finalKeysList : List String) (rowKey colKey : String) (depChar : Char)
        (row : List Char) (ws : List SuggestionConflict),
        colKey ∈ finalKeysList → rowKey ≠ colKey →
        row.getD (idxOf colKey finalKeysList) ' ' ≠ PLACEHOLDER_CHAR →
        row.getD (idxOf colKey finalKeysList) ' ' ≠ DIAGONAL_CHAR →
        row.getD (idxOf colKey finalKeysList) ' ' ≠ depChar →
        applyDep finalKeysList rowKey (row, ws) colKey depChar =
          (row, ws ++ [⟨rowKey, colKey,
            row.getD (idxOf colKey finalKeysList) ' ', depChar⟩])) ∧
    (∀ (grid : String → List Char) (finalKeysList : List String)
        (suggestions : List (String × List (String × Char))) (k : String) (j : Nat),
        (grid k).getD j ' ' ≠ PLACEHOLDER_CHAR →
        ((update_tracker_apply_suggestions grid finalKeysList suggestions).1 k).getD
          j ' ' = (grid k).getD j ' ') := by
  refine ⟨?_, ?_, ?_⟩
  · intro finalKeysList rowKey colKey depChar row ws hc hne hlen hp
    rw [applyDep, if_pos hc, if_neg hne]
    by_cases hd : depChar = PLACEHOLDER_CHAR
    · rw [if_neg (fun hcon => hcon.2 hd)]
      rw [if_neg (fun hcon => hcon.1 hp)]
      rw [hp, hd]
    · rw [if_pos ⟨hp, hd⟩]
      have hidx : idxOf colKey finalKeysList < row.length := by
        rw [hlen]; exact idxOf_lt_length hc
      rw [getD_set_eq_ite, if_pos ⟨rfl, hidx⟩]
  · intro finalKeysList rowKey colKey depChar row ws hc hne h1 h2 h3
    rw [applyDep, if_pos hc, if_neg hne]
    rw [if_neg (fun hcon => h1 hcon.1)]
    rw [if_pos ⟨h1, h2, h3⟩]
  · intro grid finalKeysList suggestions k j hp
    exact apply_suggestions_monotone grid finalKeysList suggestions k j _ hp rfl

/-- Witness for C1 on concrete data: in a two-key grid, a suggestion fills
the placeholder cell with its symbol, a conflicting suggestion against a
committed `x` leaves the cell and records the conflict, and the suggestion
pass leaves a committed cell unchanged. -/
theorem C1_suggestion_application_witness :
    (applyDep ["1A", "1B"] "1A" (['o', 'p'], []) "1B" '>').1.getD
        (idxOf "1B" ["1A", "1B"]) ' ' = '>' ∧
    applyDep ["1A", "1B"] "1A" (['o', 'x'], []) "1B" '>' =
      (['o', 'x'], [⟨"1A", "1B", 'x', '>'⟩]) ∧
    ((update_tracker_apply_suggestions (fun _ => ['o', 'x']) ["1A", "1B"]
        [("1A", [("1B", '>')])]).1 "1A").getD 1 ' ' = 'x' := by
  refine ⟨?_, ?_, ?_⟩
  · exact C1_suggestion_application.1 ["1A", "1B"] "1A" "1B" '>' ['o', 'p'] []
      (by decide) (by decide) (by decide) (by decide)
  · have h := C1_suggestion_application.2.1 ["1A", "1B"] "1A" "1B" '>' ['o', 'x'] []
      (by decide) (by decide) (by decide) (by decide) (by decide)
    simpa using h
  · have h := C1_suggestion_application.2.2 (fun _ => ['o', 'x']) ["1A", "1B"]
      [("1A", [("1B", '>')])] "1A" 1 (by decide)
    simpa using h

/-- C2: every off-diagonal cell of the grid produced by `_merge_grids`
equals primary's value when primary contains that pair with a
non-placeholder value, otherwise secondary's value under the same
condition, otherwise the placeholder (this three-way rule is exactly
`mergePick` over the two `mergeSourceVal` lookups); in particular, when
primary holds a committed value the merged cell equals it regardless of
secondary. -/
theorem C2_merge_cell_precedence
    (pg sg : List (String × String)) (pk sk mk : List String) (r c : String)
    (hnd : mk.Nodup) (hr : r ∈ mk) (hc : c ∈ mk) (hrc : r ≠ c) :
    ((alookup (_merge_grids pg sg pk sk mk) r).map
        (fun row => (decompress row).getD (idxOf c mk) ' ') =
      some (mergePick (mergeSourceVal (safeDecompressVal pg pk) pk r c)
        (mergeSourceVal (safeDecompressVal sg sk) sk r c))) ∧
    (∀ v, mergeSourceVal (safeDecompressVal pg pk) pk r c = some v →
      v ≠ PLACEHOLDER_CHAR →
      (alookup (_merge_grids pg sg pk sk mk) r).map
        (fun row => (decompress row).getD (idxOf c mk) ' ') = some v) := by
  have hlook := merge_grids_lookup pg sg pk sk mk r hnd hr
  have hcell : (alookup (_merge_grids pg sg pk sk mk) r).map
      (fun row => (decompress row).getD (idxOf c mk) ' ') =
      some (mergePick (mergeSourceVal (safeDecompressVal pg pk) pk r c)
        (mergeSourceVal (safeDecompressVal sg sk) sk r c)) := by
    rw [hlook]
    simp only [Option.map_some', decompress_compress]
    rw [merge_row_getD_off pg sg pk sk mk r c _ hc hr hrc
      (by rw [initRowAt_length]; exact idxOf_lt_length hc)]
  refine ⟨hcell, ?_⟩
  intro v hv hvp
  rw [hcell, hv]
  simp [mergePick, hvp]

/-- Witness for C2: primary holds `>` and secondary holds `<` for the same
pair; the merged cell is primary's `>`. -/
theorem C2_merge_cell_precedence_witness :
    ((alookup (_merge_grids [("1A", "o>"), ("1B", "po")] [("1A", "o<"), ("1B", "po")]
          ["1A", "1B"] ["1A", "1B"] ["1A", "1B"]) "1A").map
        (fun row => (decompress row).getD (idxOf "1B" ["1A", "1B"]) ' ') = some '>') := by
  have h := (C2_merge_cell_precedence [("1A", "o>"), ("1B", "po")]
    [("1A", "o<"), ("1B", "po")] ["1A", "1B"] ["1A", "1B"] ["1A", "1B"] "1A" "1B"
    (by decide) (by decide) (by decide) (by decide)).2 '>' (by decide) (by decide)
  exact h

theorem writeRowFor_none (grid : List (String × String)) (s : List String) (k : String)
    (h : alookup grid k = none) :
    writeRowFor grid s k = initRowAt s.length (idxOf k s) := by
  rw [writeRowFor, h]

theorem writeRowFor_keep (grid : List (String × String)) (s : List String) (k : String)
    (comp : String) (h : alookup grid k = some comp)
    (hlen : (decompress comp).length = s.length) :
    writeRowFor grid s k = decompress comp := by
  rw [writeRowFor, h]
  dsimp only
  rw [if_pos hlen]

theorem writeRowFor_repair (grid : List (String × String)) (s : List String) (k : String)
    (comp : String) (h : alookup grid k = some comp)
    (hlen : (decompress comp).length ≠ s.length) :
    writeRowFor grid s k = initRowAt s.length (idxOf k s) := by
  rw [writeRowFor, h]
  dsimp only
  rw [if_neg hlen]

/-- C3 (amended): after every successful `write_tracker_file` call, every
key in the canonical order has a grid row whose decoded length equals the
total number of keys; the symbol at the key's own canonical index is the
diagonal character for every row the writer re-initialized (absent row or
decoded-length mismatch), and for a row kept verbatim whenever its input
already carried the diagonal there — the writer never checks or repairs the
diagonal of a row whose decoded length is already correct. -/
theorem C3_squareness_after_write
    (keyDefs grid : List (String × String)) (lke lge : String) (w : WriteResult)
    (h : write_tracker_file keyDefs grid lke lge = some w)
    (k : String) (hk : k ∈ w.sortedKeys) :
    ((alookup w.finalGrid k).map (fun row => (decompress row).length)
        = some w.sortedKeys.length) ∧
    ((∀ comp, alookup grid k = some comp →
        (decompress comp).length = w.sortedKeys.length →
        (decompress comp).getD (idxOf k w.sortedKeys) ' ' = DIAGONAL_CHAR) →
      (alookup w.finalGrid k).map
          (fun row => (decompress row).getD (idxOf k w.sortedKeys) ' ')
        = some DIAGONAL_CHAR) := by
  rw [write_tracker_file] at h
  by_cases hv : validate_grid grid
      (sort_key_strings_hierarchically (keyDefs.map Prod.fst)) = true
  · rw [if_neg (by simp [hv])] at h
    obtain rfl : (⟨sort_key_strings_hierarchically (keyDefs.map Prod.fst), _, _⟩ :
        WriteResult) = w := Option.some.inj h
    dsimp only at hk ⊢
    rw [alookup_map_self _ _ k, if_pos hk]
    have hidx : idxOf k (sort_key_strings_hierarchically (keyDefs.map Prod.fst))
        < (sort_key_strings_hierarchically (keyDefs.map Prod.fst)).length :=
      idxOf_lt_length hk
    constructor
    · rw [Option.map_some', decompress_compress]
      cases halo : alookup grid k with
      | none => rw [writeRowFor_none _ _ _ halo, initRowAt_length]
      | some comp =>
        by_cases hlen : (decompress comp).length
            = (sort_key_strings_hierarchically (keyDefs.map Prod.fst)).length
        · rw [writeRowFor_keep _ _ _ comp halo hlen, hlen]
        · rw [writeRowFor_repair _ _ _ comp halo hlen, initRowAt_length]
    · intro hdiag
      rw [Option.map_some', decompress_compress]
      cases halo : alookup grid k with
      | none =>
        rw [writeRowFor_none _ _ _ halo, initRowAt_getD _ _ _ _ hidx, if_pos rfl]
      | some comp =>
        by_cases hlen : (decompress comp).length
            = (sort_key_strings_hierarchically (keyDefs.map Prod.fst)).length
        · rw [writeRowFor_keep _ _ _ comp halo hlen]
          exact congrArg some (hdiag comp halo hlen)
        · rw [writeRowFor_repair _ _ _ comp halo hlen,
            initRowAt_getD _ _ _ _ hidx, if_pos rfl]
  · rw [if_pos (by simpa using hv)] at h
    exact absurd h (by simp)

/-- Counterexample for C3 as stated: on a single-key tracker whose provided
row is `p` (correct length one, but no diagonal), the write succeeds and the
written row's symbol at the key's own index is the placeholder, not the
diagonal character. -/
theorem C3_counterexample :
    (write_tracker_file [("1A", "/a")] [("1A", "p")] "" "").map
        (fun w => (alookup w.finalGrid "1A").map
          (fun row => (decompress row).getD (idxOf "1A" w.sortedKeys) ' '))
      = some (some PLACEHOLDER_CHAR) ∧ PLACEHOLDER_CHAR ≠ DIAGONAL_CHAR := by
  exact ⟨by decide, by decide⟩

/-- Witness for the amended C3 at a concrete input: writing a single-key
tracker with no provided row yields a row of the right length whose own
index holds the diagonal. -/
theorem C3_squareness_witness :
    ((alookup (WriteResult.finalGrid ⟨["1A"], [("1A", "o")],
          writeLines ["1A"] [("1A", "/a")] [("1A", "o")] "" ""⟩) "1A").map
        (fun row => (decompress row).length)
      = some (WriteResult.sortedKeys (⟨["1A"], [("1A", "o")],
          writeLines ["1A"] [("1A", "/a")] [("1A", "o")] "" ""⟩ : WriteResult)).length) ∧
    ((alookup (WriteResult.finalGrid ⟨["1A"], [("1A", "o")],
          writeLines ["1A"] [("1A", "/a")] [("1A", "o")] "" ""⟩) "1A").map
        (fun row => (decompress row).getD
          (idxOf "1A" (WriteResult.sortedKeys (⟨["1A"], [("1A", "o")],
            writeLines ["1A"] [("1A", "/a")] [("1A", "o")] "" ""⟩ : WriteResult))) ' ')
      = some DIAGONAL_CHAR) := by
  have h := C3_squareness_after_write [("1A", "/a")] [] "" ""
    ⟨["1A"], [("1A", "o")], writeLines ["1A"] [("1A", "/a")] [("1A", "o")] "" ""⟩
    (by decide) "1A" (by decide)
  refine ⟨h.1, h.2 ?_⟩
  intro comp hcomp _
  simp [alookup] at hcomp

/-- C5: the grid rebuild of `update_tracker` (1) copies every surviving
off-diagonal cell unchanged from the old position to the new position
whenever the old row decodes to the old key count; (2) gives every
brand-new key (present in the final set, absent from the old key set of a
well-formed tracker, including the empty-old-grid and disjoint-key-set
cases) a row that is all placeholder except the diagonal at its own index;
(3) drops everything else: the written grid's row keys are exactly the
final keys and every rebuilt row has the final key count as its length, so
no row or column for a removed key survives. -/
theorem C5_grid_rebuild :
    (∀ (existingGrid : List (String × String)) (oldKeysList finalKeysList : List String)
        (r c : String) (comp : String),
        (existingGrid.map Prod.fst).Nodup → oldKeysList.Nodup →
        r ∈ finalKeysList → c ∈ finalKeysList → c ∈ oldKeysList → r ≠ c →
        alookup existingGrid r = some comp →
        (decompress comp).length = oldKeysList.length →
        (update_tracker_rebuild_grid existingGrid oldKeysList finalKeysList r).getD
            (idxOf c finalKeysList) ' '
          = (decompress comp).getD (idxOf c oldKeysList) ' ') ∧
    (∀ (existingGrid : List (String × String)) (oldKeysList finalKeysList : List String)
        (r : String),
        (∀ k ∈ existingGrid.map Prod.fst, k ∈ oldKeysList) →
        r ∈ finalKeysList → r ∉ oldKeysList →
        ∀ j, j < finalKeysList.length →
          (update_tracker_rebuild_grid existingGrid oldKeysList finalKeysList r).getD j ' '
            = if idxOf r finalKeysList = j then DIAGONAL_CHAR else PLACEHOLDER_CHAR) ∧
    (∀ (existingGrid : List (String × String)) (oldKeysList finalKeysList : List String),
        (update_tracker_final_grid
            (update_tracker_rebuild_grid existingGrid oldKeysList finalKeysList)
            finalKeysList).map Prod.fst = finalKeysList) ∧
    (∀ (existingGrid : List (String × String)) (oldKeysList finalKeysList : List String)
        (k : String), (existingGrid.map Prod.fst).Nodup →
        (update_tracker_rebuild_grid existingGrid oldKeysList finalKeysList k).length
          = finalKeysList.length) := by
  refine ⟨?_, ?_, ?_, ?_⟩
  · intro existingGrid oldKeysList finalKeysList r c comp hgnd hond hrf hcf hco hrc hl hlen
    rw [rebuild_eval_of_mem existingGrid oldKeysList finalKeysList r comp hgnd hl,
      if_pos ⟨hrf, hlen⟩]
    exact rebuildCopyRow_getD_copy oldKeysList finalKeysList r _ _ hond hlen c hco hcf
      hrf hrc (by rw [initRowAt_length]; exact idxOf_lt_length hcf)
  · intro existingGrid oldKeysList finalKeysList r hdom hrf hro j hj
    have hnotin : r ∉ existingGrid.map Prod.fst := fun hc => hro (hdom r hc)
    rw [rebuild_eval_of_notin existingGrid oldKeysList finalKeysList r hnotin]
    exact initRowAt_getD _ _ _ _ hj
  · intro existingGrid oldKeysList finalKeysList
    induction finalKeysList with
    | nil => rfl
    | cons a t ih =>
      rw [update_tracker_final_grid] at ih ⊢
      simpa using ih
  · intro existingGrid oldKeysList finalKeysList k hgnd
    cases halo : alookup existingGrid k with
    | none =>
      rw [rebuild_eval_of_notin existingGrid oldKeysList finalKeysList k
        (alookup_eq_none_iff.mp halo), initRowAt_length]
    | some comp =>
      rw [rebuild_eval_of_mem existingGrid oldKeysList finalKeysList k comp hgnd halo]
      by_cases hcond : k ∈ finalKeysList ∧ (decompress comp).length = oldKeysList.length
      · rw [if_pos hcond, rebuildCopyRow_length, initRowAt_length]
      · rw [if_neg hcond, initRowAt_length]

/-- Witness for C5 on a concrete rebuild from keys `{1A, 1B}` to
`{1A, 1B, 1C}`: the surviving cell `(1A, 1B) = '>'` is copied, the new key
`1C` gets a placeholder row with its own diagonal, and the rebuilt grid is
keyed by exactly the final keys with rows of the final length. -/
theorem C5_grid_rebuild_witness :
    (update_tracker_rebuild_grid [("1A", "o>"), ("1B", "po")] ["1A", "1B"]
        ["1A", "1B", "1C"] "1A").getD (idxOf "1B" ["1A", "1B", "1C"]) ' '
      = (decompress "o>").getD (idxOf "1B" ["1A", "1B"]) ' ' ∧
    (update_tracker_rebuild_grid [("1A", "o>"), ("1B", "po")] ["1A", "1B"]
        ["1A", "1B", "1C"] "1C").getD 0 ' '
      = (if idxOf "1C" ["1A", "1B", "1C"] = 0 then DIAGONAL_CHAR else PLACEHOLDER_CHAR) ∧
    (update_tracker_final_grid
        (update_tracker_rebuild_grid [("1A", "o>"), ("1B", "po")] ["1A", "1B"]
          ["1A", "1B", "1C"]) ["1A", "1B", "1C"]).map Prod.fst = ["1A", "1B", "1C"] ∧
    (update_tracker_rebuild_grid [("1A", "o>"), ("1B", "po")] ["1A", "1B"]
        ["1A", "1B", "1C"] "1A").length = (["1A", "1B", "1C"] : List String).length := by
  refine ⟨?_, ?_, ?_, ?_⟩
  · exact C5_grid_rebuild.1 [("1A", "o>"), ("1B", "po")] ["1A", "1B"]
      ["1A", "1B", "1C"] "1A" "1B" "o>" (by decide) (by decide) (by decide) (by decide)
      (by decide) (by decide) (by decide) (by decide)
  · exact C5_grid_rebuild.2.1 [("1A", "o>"), ("1B", "po")] ["1A", "1B"]
      ["1A", "1B", "1C"] "1C" (by decide) (by decide) (by decide) 0 (by decide)
  · exact C5_grid_rebuild.2.2.1 [("1A", "o>"), ("1B", "po")] ["1A", "1B"]
      ["1A", "1B", "1C"]
  · exact C5_grid_rebuild.2.2.2 [("1A", "o>"), ("1B", "po")] ["1A", "1B"]
      ["1A", "1B", "1C"] "1A" (by decide)

/-- C10: when both trackers read back keyless, `merge_trackers` returns
`none` on the branch at line 344, before any write is attempted — in the
model, `none` means no `WriteResult` content exists for the output path.
Returning the other tracker unchanged happens exactly when one side is
keyless and the other is not: the data handed to the final write is then
the non-empty input itself. -/
theorem C10_merge_empty_inputs :
    (∀ p s : TrackerData, p.keys = [] → s.keys = [] → merge_trackers p s = none) ∧
    (∀ p s : TrackerData, p.keys = [] → s.keys ≠ [] →
      merge_trackers p s =
        (write_tracker_file s.keys s.grid s.last_key_edit s.last_grid_edit).map
          (fun w => (s, w))) ∧
    (∀ p s : TrackerData, p.keys ≠ [] → s.keys = [] →
      merge_trackers p s =
        (write_tracker_file p.keys p.grid p.last_key_edit p.last_grid_edit).map
          (fun w => (p, w))) := by
  refine ⟨?_, ?_, ?_⟩
  · intro p s hp hs
    rw [merge_trackers, if_pos ⟨by simp [hp], by simp [hs]⟩]
  · intro p s hp hs
    rw [merge_trackers, if_neg (fun hc => hs (List.isEmpty_iff.mp hc.2))]
    have hpe : p.keys.isEmpty = true := by simp [hp]
    rw [if_pos hpe]
    dsimp only
    cases write_tracker_file s.keys s.grid s.last_key_edit s.last_grid_edit with
    | none => rfl
    | some w => rfl
  · intro p s hp hs
    rw [merge_trackers, if_neg (fun hc => hp (List.isEmpty_iff.mp hc.1))]
    have hpe : p.keys.isEmpty = false := by
      cases hk : p.keys with
      | nil => exact absurd hk hp
      | cons a t => rfl
    rw [if_neg (by simp [hpe])]
    have hse : s.keys.isEmpty = true := by simp [hs]
    rw [if_pos hse]
    dsimp only
    cases write_tracker_file p.keys p.grid p.last_key_edit p.last_grid_edit with
    | none => rfl
    | some w => rfl

/-- Witness for C10: two keyless trackers merge to `none`; a keyless
primary with a one-key secondary degenerates to writing the secondary
unchanged. -/
theorem C10_merge_empty_inputs_witness :
    merge_trackers ⟨[], [], "", ""⟩ ⟨[], [], "", ""⟩ = none ∧
    merge_trackers ⟨[], [], "", ""⟩ ⟨[("1A", "/a")], [("1A", "o")], "k", "g"⟩ =
      (write_tracker_file [("1A", "/a")] [("1A", "o")] "k" "g").map
        (fun w => (⟨[("1A", "/a")], [("1A", "o")], "k", "g"⟩, w)) := by
  constructor
  · exact C10_merge_empty_inputs.1 ⟨[], [], "", ""⟩ ⟨[], [], "", ""⟩ rfl rfl
  · exact C10_merge_empty_inputs.2.1 ⟨[], [], "", ""⟩
      ⟨[("1A", "/a")], [("1A", "o")], "k", "g"⟩ rfl (by decide)

theorem find?_eq_none_of_notin {α : Type} {l : List (String × α)} {rk : String}
    (h : rk ∉ l.map Prod.fst) : l.find? (fun e => e.1 == rk) = none := by
  rw [List.find?_eq_none]
  intro e he hc
  have hek : e.1 = rk := by simpa using hc
  exact h (hek ▸ List.mem_map_of_mem Prod.fst he)

theorem find?_of_alookup {α : Type} {l : List (String × α)} {rk : String} {v : α}
    (h : alookup l rk = some v) : l.find? (fun e => e.1 == rk) = some (rk, v) := by
  induction l with
  | nil => simp [alookup] at h
  | cons e t ih =>
    by_cases he : e.1 = rk
    · rw [alookup, if_pos he] at h
      obtain rfl : e.2 = v := Option.some.inj h
      rw [List.find?_cons_of_pos _ (by simp [he])]
      have : e = (rk, e.2) := by
        rw [← he]
      rw [← this]
    · rw [alookup, if_neg he] at h
      rw [List.find?_cons_of_neg _ (by simp [he])]
      exact ih h

theorem foldl_keep_dinsert_lookup {α : Type} (l : List (String × String))
    (keep : String × String → Prop) [DecidablePred keep] (f : String × String → α)
    (hnd : (l.map Prod.fst).Nodup) (acc : List (String × α)) (rk : String) :
    alookup (l.foldl (fun fg e => if keep e then dinsert fg e.1 (f e) else fg) acc) rk =
      match l.find? (fun e => e.1 == rk) with
      | some e => if keep e then some (f e) else alookup acc rk
      | none => alookup acc rk := by
  induction l generalizing acc with
  | nil => rfl
  | cons e t ih =>
    rw [List.map_cons, List.nodup_cons] at hnd
    rw [List.foldl_cons]
    by_cases he : e.1 = rk
    · rw [List.find?_cons_of_pos _ (by simp [he])]
      have hnt : rk ∉ t.map Prod.fst := he ▸ hnd.1
      have hfind : t.find? (fun x => x.1 == rk) = none := find?_eq_none_of_notin hnt
      rw [ih hnd.2 _, hfind]
      dsimp only
      by_cases hk : keep e
      · rw [if_pos hk, if_pos hk, ← he]
        exact alookup_dinsert_self acc e.1 (f e)
      · rw [if_neg hk, if_neg hk]
    · rw [List.find?_cons_of_neg _ (by simp [he])]
      rw [ih hnd.2 _]
      by_cases hk : keep e
      · rw [if_pos hk]
        cases hfind : t.find? (fun x => x.1 == rk) with
        | some e' =>
          dsimp only
          rw [alookup_dinsert_ne acc (f e) he]
        | none =>
          dsimp only
          rw [alookup_dinsert_ne acc (f e) he]
      · rw [if_neg hk]

theorem filter_ne_length {α : Type} {l : List (String × α)} {k : String}
    (hnd : (l.map Prod.fst).Nodup) (h : k ∈ l.map Prod.fst) :
    (l.filter (fun p => p.1 ≠ k)).length + 1 = l.length := by
  induction l with
  | nil => simp at h
  | cons e t ih =>
    rw [List.map_cons, List.nodup_cons] at hnd
    by_cases he : e.1 = k
    · have hnt : k ∉ t.map Prod.fst := he ▸ hnd.1
      have hfil : t.filter (fun p => p.1 ≠ k) = t := by
        apply List.filter_eq_self.mpr
        intro p hp
        refine decide_eq_true ?_
        intro hc
        exact hnt (hc ▸ List.mem_map_of_mem Prod.fst hp)
      rw [List.filter_cons_of_neg (by simp [he]), hfil, List.length_cons]
    · have hkt : k ∈ t.map Prod.fst := by
        rcases List.mem_cons.mp h with h1 | h1
        · exact absurd h1.symm he
        · exact h1
      rw [List.filter_cons_of_pos (by simp [he]), List.length_cons,
        List.length_cons, ih hnd.2 hkt]

theorem notin_map_fst_filter_ne {α : Type} (l : List (String × α)) (k : String) :
    k ∉ (l.filter (fun p => p.1 ≠ k)).map Prod.fst := by
  intro hc
  obtain ⟨p, hpm, hpk⟩ := List.mem_map.mp hc
  have := List.of_mem_filter hpm
  rw [hpk] at this
  exact (of_decide_eq_true this) rfl

/-- C6: removing a key `k` present in a tracker with `N` (unique) key
definitions yields `N−1` definitions with no entry for `k`, the produced
grid has no row for `k`, and every surviving row whose decoded length
matches the old key count has the column at `k`'s former index in the old
canonical order spliced out.  If `k` is absent from the tracker's
definitions the operation returns early without writing anything and
without raising (the embedding is total and yields `none`, modelling the
early `return` at line 1062). -/
theorem C6_remove_key :
    (∀ (defs grid : List (String × String)) (k : String)
        (fd fg : List (String × String)),
        (defs.map Prod.fst).Nodup → (grid.map Prod.fst).Nodup →
        k ∈ defs.map Prod.fst →
        remove_key_from_tracker defs grid k = some (fd, fg) →
        (fd.length + 1 = defs.length ∧ k ∉ fd.map Prod.fst ∧ alookup fg k = none ∧
          (∀ rk comp, rk ≠ k → alookup grid rk = some comp →
            (decompress comp).length
              = (sort_key_strings_hierarchically (defs.map Prod.fst)).length →
            alookup fg rk = some (compress
              ((decompress comp).take
                  (idxOf k (sort_key_strings_hierarchically (defs.map Prod.fst)))
                ++ (decompress comp).drop
                  (idxOf k (sort_key_strings_hierarchically (defs.map Prod.fst)) + 1)))))) ∧
    (∀ (defs grid : List (String × String)) (k : String), k ∈ defs.map Prod.fst →
      (remove_key_from_tracker defs grid k).isSome = true) ∧
    (∀ (defs grid : List (String × String)) (k : String), k ∉ defs.map Prod.fst →
      remove_key_from_tracker defs grid k = none) := by
  refine ⟨?_, ?_, ?_⟩
  · intro defs grid k fd fg hdnd hgnd hk h
    have hko : k ∈ sort_key_strings_hierarchically (defs.map Prod.fst) := mem_sort.mpr hk
    rw [remove_key_from_tracker, if_pos hk, if_pos hko] at h
    dsimp only at h
    have hpair := Option.some.inj h
    rw [Prod.mk.injEq] at hpair
    obtain ⟨rfl, rfl⟩ := hpair
    refine ⟨filter_ne_length hdnd hk, notin_map_fst_filter_ne defs k, ?_, ?_⟩
    · have hbody : ∀ (fgacc : List (String × String)) (e : String × String),
          (if e.1 ≠ k then
            let decompRow := decompress e.2
            if decompRow.length
                = (sort_key_strings_hierarchically (defs.map Prod.fst)).length then
              dinsert fgacc e.1 (compress (decompRow.take
                  (idxOf k (sort_key_strings_hierarchically (defs.map Prod.fst)))
                ++ decompRow.drop
                  (idxOf k (sort_key_strings_hierarchically (defs.map Prod.fst)) + 1)))
            else dinsert fgacc e.1 (compress (removeReinitRow
              (sort_key_strings_hierarchically
                ((defs.filter (fun p => p.1 ≠ k)).map Prod.fst)) e.1))
          else fgacc) =
          (if e.1 ≠ k then dinsert fgacc e.1
            (if (decompress e.2).length
                = (sort_key_strings_hierarchically (defs.map Prod.fst)).length then
              compress ((decompress e.2).take
                  (idxOf k (sort_key_strings_hierarchically (defs.map Prod.fst)))
                ++ (decompress e.2).drop
                  (idxOf k (sort_key_strings_hierarchically (defs.map Prod.fst)) + 1))
            else compress (removeReinitRow
              (sort_key_strings_hierarchically
                ((defs.filter (fun p => p.1 ≠ k)).map Prod.fst)) e.1))
          else fgacc) := by
        intro fgacc e
        dsimp only
        by_cases h1 : e.1 ≠ k
        · rw [if_pos h1, if_pos h1, apply_ite (dinsert fgacc e.1)]
        · rw [if_neg h1, if_neg h1]
      rw [foldl_fun_congr _ _ _ _ (fun acc p _ => hbody acc p),
        foldl_keep_dinsert_lookup grid (fun e => e.1 ≠ k) _ hgnd [] k]
      cases hfind : grid.find? (fun e => e.1 == k) with
      | none => rfl
      | some e =>
        have hfs := List.find?_some hfind
        have hek : e.1 = k := by simpa using hfs
        dsimp only
        rw [if_neg (by simpa using hek)]
        rfl
    · intro rk comp hrk hlook hlen
      have hbody : ∀ (fgacc : List (String × String)) (e : String × String),
          (if e.1 ≠ k then
            let decompRow := decompress e.2
            if decompRow.length
                = (sort_key_strings_hierarchically (defs.map Prod.fst)).length then
              dinsert fgacc e.1 (compress (decompRow.take
                  (idxOf k (sort_key_strings_hierarchically (defs.map Prod.fst)))
                ++ decompRow.drop
                  (idxOf k (sort_key_strings_hierarchically (defs.map Prod.fst)) + 1)))
            else dinsert fgacc e.1 (compress (removeReinitRow
              (sort_key_strings_hierarchically
                ((defs.filter (fun p => p.1 ≠ k)).map Prod.fst)) e.1))
          else fgacc) =
          (if e.1 ≠ k then dinsert fgacc e.1
            (if (decompress e.2).length
                = (sort_key_strings_hierarchically (defs.map Prod.fst)).length then
              compress ((decompress e.2).take
                  (idxOf k (sort_key_strings_hierarchically (defs.map Prod.fst)))
                ++ (decompress e.2).drop
                  (idxOf k (sort_key_strings_hierarchically (defs.map Prod.fst)) + 1))
            else compress (removeReinitRow
              (sort_key_strings_hierarchically
                ((defs.filter (fun p => p.1 ≠ k)).map Prod.fst)) e.1))
          else fgacc) := by
        intro fgacc e
        dsimp only
        by_cases h1 : e.1 ≠ k
        · rw [if_pos h1, if_pos h1, apply_ite (dinsert fgacc e.1)]
        · rw [if_neg h1, if_neg h1]
      rw [foldl_fun_congr _ _ _ _ (fun acc p _ => hbody acc p),
        foldl_keep_dinsert_lookup grid (fun e => e.1 ≠ k) _ hgnd [] rk,
        find?_of_alookup hlook]
      dsimp only
      rw [if_pos (by simpa using hrk), if_pos hlen]
  · intro defs grid k hk
    have hko : k ∈ sort_key_strings_hierarchically (defs.map Prod.fst) := mem_sort.mpr hk
    rw [remove_key_from_tracker, if_pos hk, if_pos hko]
    rfl
  · intro defs grid k hk
    rw [remove_key_from_tracker, if_neg hk]

/-- Witness for C6 on a three-key tracker: removing the middle key `1B`
leaves two definitions without `1B`, no grid row for `1B`, and splices
column index 1 out of the surviving row of `1A`; removing an absent key is
a no-op. -/
theorem C6_remove_key_witness :
    ((([("1A", "/a"), ("1C", "/c")] : List (String × String)).length + 1
        = ([("1A", "/a"), ("1B", "/b"), ("1C", "/c")] : List (String × String)).length) ∧
      "1B" ∉ ([("1A", "/a"), ("1C", "/c")] : List (String × String)).map Prod.fst ∧
      alookup [("1A", "oy"), ("1C", "uo")] "1B" = none ∧ True) ∧
    remove_key_from_tracker [("1A", "/a")] [("1A", "o")] "9Z" = none := by
  constructor
  · have h := C6_remove_key.1 [("1A", "/a"), ("1B", "/b"), ("1C", "/c")]
      [("1A", "oxy"), ("1B", "zow"), ("1C", "uvo")] "1B"
      [("1A", "/a"), ("1C", "/c")] [("1A", "oy"), ("1C", "uo")]
      (by decide) (by decide) (by decide) (by decide)
    exact ⟨h.1, h.2.1, h.2.2.1, trivial⟩
  · exact C6_remove_key.2.2 [("1A", "/a")] [("1A", "o")] "9Z" (by decide)

theorem mem_insertDesc {x t : Nat} {l : List Nat} :
    x ∈ insertDesc t l ↔ x = t ∨ x ∈ l := by
  induction l with
  | nil => simp [insertDesc]
  | cons a r ih =>
    by_cases h : a ≤ t
    · simp [insertDesc, h]
    · simp only [insertDesc, if_neg h, List.mem_cons, ih]
      tauto

theorem mem_sortStampsDesc {x : Nat} {l : List Nat} :
    x ∈ sortStampsDesc l ↔ x ∈ l := by
  induction l with
  | nil => simp [sortStampsDesc]
  | cons a r ih =>
    simp only [sortStampsDesc, List.foldr_cons]
    rw [show List.foldr insertDesc [] r = sortStampsDesc r from rfl] at *
    rw [mem_insertDesc, ih, List.mem_cons]

theorem insertDesc_of_max {t : Nat} {l : List Nat} (h : ∀ x ∈ l, x ≤ t) :
    insertDesc t l = t :: l := by
  cases l with
  | nil => rfl
  | cons a r => rw [insertDesc, if_pos (h a (List.mem_cons_self a r))]

theorem backupsAfter_eq (ts : List Nat) (h : List.Chain' (· < ·) ts) :
    backupsAfter ts = ts.reverse.take 2 := by
  induction ts using List.reverseRecOn with
  | nil => rfl
  | append_singleton ts t ih =>
    obtain ⟨hts, -, hlast⟩ := List.chain'_append.mp h
    have hstep : backupsAfter (ts ++ [t])
        = (backup_tracker_file_step (backupsAfter ts) t (fun _ => true)).1 := by
      rw [backupsAfter, List.foldl_append, List.foldl_cons, List.foldl_nil]
      rfl
    rw [hstep, ih hts, List.reverse_append]
    simp only [List.reverse_cons, List.reverse_nil, List.nil_append, List.singleton_append]
    cases hrev : ts.reverse with
    | nil => rfl
    | cons a rest =>
      have ha : a < t := by
        refine hlast a ?_ t (by simp)
        rw [← List.head?_reverse, hrev]
        rfl
      cases rest with
      | nil =>
        simp only [List.take]
        rw [backup_tracker_file_step]
        have hsort : sortStampsDesc [t, a] = [t, a] := by
          rw [sortStampsDesc, List.foldr_cons, List.foldr_cons, List.foldr_nil]
          rw [show insertDesc a [] = [a] from rfl, insertDesc, if_pos ha.le]
        dsimp only
        rw [hsort]
        rfl
      | cons b rest2 =>
        have hflip : List.Chain' (fun x y => y < x) (a :: b :: rest2) := by
          rw [← hrev]
          exact List.chain'_reverse.mpr (by simpa using hts)
        have hba : b < a := (List.chain'_cons.mp hflip).1
        simp only [List.take]
        rw [backup_tracker_file_step]
        have hsort : sortStampsDesc [t, a, b] = [t, a, b] := by
          rw [sortStampsDesc, List.foldr_cons, List.foldr_cons, List.foldr_cons,
            List.foldr_nil]
          rw [show insertDesc b [] = [b] from rfl, insertDesc, if_pos hba.le,
            insertDesc, if_pos ha.le]
        dsimp only
        rw [hsort]
        rfl

/-- C9: folding `backup_tracker_file` over `M ≥ 3` backups of the same base
filename taken at strictly increasing timestamps, with every delete
succeeding, leaves exactly the two most recently created backups (part 1);
and one backup step's return value and its newly created backup never
depend on cleanup success — a failed delete merely leaves the stale file in
place (part 2). -/
theorem C9_backup_retention :
    (∀ ts : List Nat, List.Chain' (· < ·) ts → 3 ≤ ts.length →
      backupsAfter ts = ts.reverse.take 2 ∧ (backupsAfter ts).length = 2) ∧
    (∀ (stamps : List Nat) (newStamp : Nat) (deleteOk : Nat → Bool),
      (∀ x ∈ stamps, x < newStamp) →
      (backup_tracker_file_step stamps newStamp deleteOk).2 = newStamp ∧
      newStamp ∈ (backup_tracker_file_step stamps newStamp deleteOk).1) := by
  constructor
  · intro ts hc hlen
    refine ⟨backupsAfter_eq ts hc, ?_⟩
    rw [backupsAfter_eq ts hc, List.length_take, List.length_reverse]
    omega
  · intro stamps newStamp deleteOk hmax
    refine ⟨rfl, ?_⟩
    have hsort : sortStampsDesc (newStamp :: stamps)
        = newStamp :: sortStampsDesc stamps := by
      rw [sortStampsDesc, List.foldr_cons,
        show List.foldr insertDesc [] stamps = sortStampsDesc stamps from rfl]
      exact insertDesc_of_max (fun x hx => (hmax x (mem_sortStampsDesc.mp hx)).le)
    rw [backup_tracker_file_step]
    dsimp only
    rw [hsort]
    by_cases hlen : 2 < (newStamp :: sortStampsDesc stamps).length
    · rw [if_pos hlen]
      refine List.mem_append_left _ ?_
      rw [List.take]
      exact List.mem_cons_self ..
    · rw [if_neg hlen]
      exact List.mem_cons_self ..

/-- Witness for C9: five backups at timestamps 1..5 leave exactly the two
most recent, `[5, 4]`; a backup whose cleanup deletes all fail still
returns its own timestamp and keeps the new backup present. -/
theorem C9_backup_retention_witness :
    (backupsAfter [1, 2, 3, 4, 5] = [5, 4] ∧ (backupsAfter [1, 2, 3, 4, 5]).length = 2) ∧
    ((backup_tracker_file_step [5, 4] 6 (fun _ => false)).2 = 6 ∧
      6 ∈ (backup_tracker_file_step [5, 4] 6 (fun _ => false)).1) := by
  constructor
  · have h := C9_backup_retention.1 [1, 2, 3, 4, 5] (by simp [List.chain'_cons]) (by decide)
    exact ⟨by rw [h.1]; rfl, h.2⟩
  · exact C9_backup_retention.2 [5, 4] 6 (fun _ => false) (by decide)

theorem dict_merge_self {d : List (String × String)} (hnd : (d.map Prod.fst).Nodup) :
    dict_merge d d = d := by
  rw [dict_merge]
  suffices h : ∀ l : List (String × String), (∀ e ∈ l, e ∈ d) →
      l.foldl (fun acc kv => dinsert acc kv.1 kv.2) d = d by
    exact h d (fun e he => he)
  intro l hl
  induction l with
  | nil => rfl
  | cons e t ih =>
    rw [List.foldl_cons, dinsert_of_mem_nodup hnd (hl e (List.mem_cons_self e t))]
    exact ih (fun x hx => hl x (List.mem_cons_of_mem _ hx))

theorem merge_grids_map_fst (pg sg : List (String × String))
    (pk sk mk : List String) :
    (_merge_grids pg sg pk sk mk).map Prod.fst = mk := by
  rw [_merge_grids, List.map_map]
  exact List.enum_map_snd mk

theorem mergePick_self (v : Char) : mergePick (some v) (some v) = v := by
  by_cases h : v = PLACEHOLDER_CHAR
  · rw [mergePick]
    rw [if_neg (by simpa using h), if_neg (by simpa using h)]
    exact h.symm
  · rw [mergePick]
    rw [if_pos h]

theorem validate_grid_of_dom {grid : List (String × String)} {ks : List String}
    (h : ∀ p ∈ grid, p.1 ∈ ks) : validate_grid grid ks = true := by
  rw [validate_grid, List.all_eq_true]
  intro p hp
  exact List.elem_eq_true_of_mem (h p hp)

theorem merge_trackers_nonempty (p s : TrackerData) (hp : p.keys ≠ [])
    (hs : s.keys ≠ []) :
    merge_trackers p s =
      (write_tracker_file (dict_merge s.keys p.keys)
        (_merge_grids p.grid s.grid
          (sort_key_strings_hierarchically (p.keys.map Prod.fst))
          (sort_key_strings_hierarchically (s.keys.map Prod.fst))
          (sort_key_strings_hierarchically ((dict_merge s.keys p.keys).map Prod.fst)))
        (if p.last_key_edit ≠ "" then p.last_key_edit else s.last_key_edit)
        merged_grid_edit_message).map
        (fun w => (⟨dict_merge s.keys p.keys,
          _merge_grids p.grid s.grid
            (sort_key_strings_hierarchically (p.keys.map Prod.fst))
            (sort_key_strings_hierarchically (s.keys.map Prod.fst))
            (sort_key_strings_hierarchically ((dict_merge s.keys p.keys).map Prod.fst)),
          (if p.last_key_edit ≠ "" then p.last_key_edit else s.last_key_edit),
          merged_grid_edit_message⟩, w)) := by
  have hpe : p.keys.isEmpty = false := by
    cases hk : p.keys with
    | nil => exact absurd hk hp
    | cons a t => rfl
  have hse : s.keys.isEmpty = false := by
    cases hk : s.keys with
    | nil => exact absurd hk hs
    | cons a t => rfl
  rw [merge_trackers, if_neg (by simp [hpe]), if_neg (by simp [hpe]),
    if_neg (by simp [hse])]
  dsimp only
  cases write_tracker_file (dict_merge s.keys p.keys)
      (_merge_grids p.grid s.grid
        (sort_key_strings_hierarchically (p.keys.map Prod.fst))
        (sort_key_strings_hierarchically (s.keys.map Prod.fst))
        (sort_key_strings_hierarchically ((dict_merge s.keys p.keys).map Prod.fst)))
      (if p.last_key_edit ≠ "" then p.last_key_edit else s.last_key_edit)
      merged_grid_edit_message with
  | none => rfl
  | some w => rfl

/-- C8: merging a non-empty, well-formed tracker with itself reproduces it —
the merged data returned by `merge_trackers` has the same key definitions,
bitwise the same grid cells (as a map from keys to compressed rows), and
the same `last_key_edit`; only the `last_grid_edit` audit string is
replaced by the merge message. -/
theorem C8_self_merge (A : TrackerData)
    (hne : A.keys ≠ [])
    (hnd : (A.keys.map Prod.fst).Nodup)
    (hgdom : ∀ q ∈ A.grid.map Prod.fst, q ∈ A.keys.map Prod.fst)
    (hsq : ∀ q ∈ A.keys.map Prod.fst, ∃ comp, alookup A.grid q = some comp ∧
      (decompress comp).length = A.keys.length ∧
      (decompress comp).getD
          (idxOf q (sort_key_strings_hierarchically (A.keys.map Prod.fst))) ' '
        = DIAGONAL_CHAR) :
    (merge_trackers A A).isSome = true ∧
    (∀ md w, merge_trackers A A = some (md, w) →
      md.keys = A.keys ∧ (∀ q, alookup md.grid q = alookup A.grid q) ∧
      md.last_key_edit = A.last_key_edit ∧
      md.last_grid_edit = merged_grid_edit_message) := by
  have hkeys : dict_merge A.keys A.keys = A.keys := dict_merge_self hnd
  have hksnd : (sort_key_strings_hierarchically (A.keys.map Prod.fst)).Nodup :=
    sort_nodup hnd
  have hkslen : (sort_key_strings_hierarchically (A.keys.map Prod.fst)).length
      = A.keys.length := by
    rw [sort_length, List.length_map]
  have hcell : ∀ q ∈ sort_key_strings_hierarchically (A.keys.map Prod.fst),
      alookup (_merge_grids A.grid A.grid
        (sort_key_strings_hierarchically (A.keys.map Prod.fst))
        (sort_key_strings_hierarchically (A.keys.map Prod.fst))
        (sort_key_strings_hierarchically (A.keys.map Prod.fst))) q
      = alookup A.grid q := by
    intro q hq
    have hqk : q ∈ A.keys.map Prod.fst := mem_sort.mp hq
    obtain ⟨comp, hcomp, hlen, hdiag⟩ := hsq q hqk
    have hlen' : (decompress comp).length
        = (sort_key_strings_hierarchically (A.keys.map Prod.fst)).length := by
      rw [hkslen]; exact hlen
    rw [merge_grids_lookup _ _ _ _ _ q hksnd hq, hcomp]
    congr 1
    rw [← compress_decompress comp]
    congr 1
    apply eq_of_getD_eq _ _ ' '
    · rw [merge_row_length, initRowAt_length, hlen']
    · intro j hj
      rw [merge_row_length, initRowAt_length] at hj
      by_cases hjd : j = idxOf q (sort_key_strings_hierarchically (A.keys.map Prod.fst))
      · subst hjd
        rw [merge_row_getD_diag, initRowAt_getD _ _ _ _ hj, if_pos rfl, hdiag]
      · have hc : (sort_key_strings_hierarchically (A.keys.map Prod.fst)).getD j ""
            ∈ sort_key_strings_hierarchically (A.keys.map Prod.fst) := getD_mem hj ""
        have hidxc : idxOf
            ((sort_key_strings_hierarchically (A.keys.map Prod.fst)).getD j "")
            (sort_key_strings_hierarchically (A.keys.map Prod.fst)) = j :=
          idxOf_getD_nodup hksnd hj ""
        have hqc : q ≠ (sort_key_strings_hierarchically (A.keys.map Prod.fst)).getD j "" := by
          intro hcq
          exact hjd (by rw [hcq, hidxc])
        rw [← hidxc, merge_row_getD_off _ _ _ _ _ q _ _ hc hq hqc
          (by rw [initRowAt_length, hidxc]; exact hj)]
        have hsdv : safeDecompressVal A.grid
            (sort_key_strings_hierarchically (A.keys.map Prod.fst)) q
            = some (decompress comp) := by
          rw [safeDecompressVal, hcomp]
          dsimp only
          rw [if_pos ⟨hq, hlen'⟩]
        rw [mergeSourceVal, hsdv]
        dsimp only
        rw [if_pos hc, if_pos (by rw [hidxc, hlen']; exact hj)]
        rw [mergePick_self]
  have hmgdom : (_merge_grids A.grid A.grid
      (sort_key_strings_hierarchically (A.keys.map Prod.fst))
      (sort_key_strings_hierarchically (A.keys.map Prod.fst))
      (sort_key_strings_hierarchically (A.keys.map Prod.fst))).map Prod.fst
      = sort_key_strings_hierarchically (A.keys.map Prod.fst) :=
    merge_grids_map_fst ..
  have hall : ∀ q, alookup (_merge_grids A.grid A.grid
      (sort_key_strings_hierarchically (A.keys.map Prod.fst))
      (sort_key_strings_hierarchically (A.keys.map Prod.fst))
      (sort_key_strings_hierarchically (A.keys.map Prod.fst))) q
      = alookup A.grid q := by
    intro q
    by_cases hq : q ∈ sort_key_strings_hierarchically (A.keys.map Prod.fst)
    · exact hcell q hq
    · rw [alookup_eq_none_iff.mpr (by rw [hmgdom]; exact hq),
        alookup_eq_none_iff.mpr (fun hc => hq (mem_sort.mpr (hgdom q hc)))]
  have hval : validate_grid (_merge_grids A.grid A.grid
      (sort_key_strings_hierarchically (A.keys.map Prod.fst))
      (sort_key_strings_hierarchically (A.keys.map Prod.fst))
      (sort_key_strings_hierarchically (A.keys.map Prod.fst)))
      (sort_key_strings_hierarchically (A.keys.map Prod.fst)) = true := by
    apply validate_grid_of_dom
    intro p hp
    rw [← hmgdom]
    exact List.mem_map_of_mem Prod.fst hp
  rw [merge_trackers_nonempty A A hne hne, hkeys, ite_self]
  rw [write_tracker_file, if_neg (by simp [hval])]
  constructor
  · rfl
  · intro md w h
    simp only [Option.map_some'] at h
    have hpair := Option.some.inj h
    rw [Prod.mk.injEq] at hpair
    obtain ⟨hmd, -⟩ := hpair
    rw [← hmd]
    exact ⟨rfl, hall, rfl, rfl⟩

/-- Witness for C8 on a concrete two-key tracker: self-merge succeeds and
reproduces the keys, every grid cell, and the key-edit audit string. -/
theorem C8_self_merge_witness :
    (merge_trackers ⟨[("1A", "/a"), ("1B", "/b")], [("1A", "o>"), ("1B", "po")], "k1", "g1"⟩
        ⟨[("1A", "/a"), ("1B", "/b")], [("1A", "o>"), ("1B", "po")], "k1", "g1"⟩).isSome
      = true ∧
    (∀ md w,
      merge_trackers ⟨[("1A", "/a"), ("1B", "/b")], [("1A", "o>"), ("1B", "po")], "k1", "g1"⟩
          ⟨[("1A", "/a"), ("1B", "/b")], [("1A", "o>"), ("1B", "po")], "k1", "g1"⟩
        = some (md, w) →
      md.keys = [("1A", "/a"), ("1B", "/b")] ∧
      (∀ q, alookup md.grid q = alookup [("1A", "o>"), ("1B", "po")] q) ∧
      md.last_key_edit = "k1" ∧ md.last_grid_edit = merged_grid_edit_message) := by
  have h := C8_self_merge
    ⟨[("1A", "/a"), ("1B", "/b")], [("1A", "o>"), ("1B", "po")], "k1", "g1"⟩
    (by decide) (by decide) (by decide) ?_
  · exact h
  · intro q hq
    rcases (by simpa using hq : q = "1A" ∨ q = "1B") with rfl | rfl
    · exact ⟨"o>", by decide, by decide, by decide⟩
    · exact ⟨"po", by decide, by decide, by decide⟩

theorem alnum_not_ws {c : Char} (h : c.isAlphanum = true) : pythonWS c = false := by
  have h1 : c ≠ ' ' := fun hc => absurd (hc ▸ h) (by decide)
  have h2 : c ≠ '\t' := fun hc => absurd (hc ▸ h) (by decide)
  have h3 : c ≠ '\n' := fun hc => absurd (hc ▸ h) (by decide)
  have h4 : c ≠ '\r' := fun hc => absurd (hc ▸ h) (by decide)
  have h5 : c ≠ '\x0b' := fun hc => absurd (hc ▸ h) (by decide)
  have h6 : c ≠ '\x0c' := fun hc => absurd (hc ▸ h) (by decide)
  rw [pythonWS]
  simp [h1, h2, h3, h4, h5, h6]

theorem validate_key_shape {k : String} (h : validate_key k = true) :
    ∃ a t, k.data = a :: t ∧ a.isAlphanum = true ∧ ∀ c ∈ k.data, c.isAlphanum = true := by
  rw [validate_key, Bool.and_eq_true] at h
  obtain ⟨hne, hall⟩ := h
  cases hd : k.data with
  | nil =>
    rw [hd] at hne
    exact absurd hne (by decide)
  | cons a t =>
    rw [List.all_eq_true] at hall
    exact ⟨a, t, rfl, hall a (hd ▸ List.mem_cons_self a t),
      fun c hc => hall c (hd ▸ hc)⟩

theorem dropWhile_cons_of_false {p : Char → Bool} {a : Char} (l : List Char)
    (h : p a = false) : (a :: l).dropWhile p = a :: l := by
  rw [List.dropWhile_cons, if_neg (by simp [h])]

theorem dropWhile_length_le (p : Char → Bool) (l : List Char) :
    (l.dropWhile p).length ≤ l.length := by
  induction l with
  | nil => exact Nat.le_refl 0
  | cons a t ih =>
    rw [List.dropWhile_cons]
    by_cases h : p a
    · rw [if_pos h]
      exact Nat.le_succ_of_le ih
    · rw [if_neg h]

theorem dropWhile_eq_self_of_length {p : Char → Bool} {l : List Char}
    (h : (l.dropWhile p).length = l.length) : l.dropWhile p = l := by
  cases l with
  | nil => rfl
  | cons a t =>
    rw [List.dropWhile_cons] at h ⊢
    by_cases hp : p a
    · rw [if_pos hp] at h
      have := dropWhile_length_le p t
      rw [h] at this
      exact absurd this (by simp [Nat.lt_irrefl])
    · rw [if_neg hp]

theorem strTrim_fix_parts {s : String} (h : strTrim s = s) :
    s.data.dropWhile pythonWS = s.data ∧
    s.data.reverse.dropWhile pythonWS = s.data.reverse := by
  have hdata : trimList s.data = s.data := congrArg String.data h
  have hlen1 : (trimList s.data).length = s.data.length := by rw [hdata]
  rw [trimList, List.length_reverse] at hlen1
  have hle1 : ((s.data.dropWhile pythonWS).reverse.dropWhile pythonWS).length
      ≤ (s.data.dropWhile pythonWS).length := by
    have := dropWhile_length_le pythonWS (s.data.dropWhile pythonWS).reverse
    rwa [List.length_reverse] at this
  have hle2 : (s.data.dropWhile pythonWS).length ≤ s.data.length :=
    dropWhile_length_le pythonWS s.data
  have hfront : s.data.dropWhile pythonWS = s.data :=
    dropWhile_eq_self_of_length (by omega)
  refine ⟨hfront, ?_⟩
  rw [hfront] at hlen1
  exact dropWhile_eq_self_of_length (by rw [List.length_reverse]; omega)

theorem dropWhile_append_of_ne_nil {p : Char → Bool} {A : List Char} (B : List Char)
    (h : A.dropWhile p ≠ []) : (A ++ B).dropWhile p = A.dropWhile p ++ B := by
  induction A with
  | nil => exact absurd rfl h
  | cons a t ih =>
    by_cases hp : p a = true
    · have h' : t.dropWhile p ≠ [] := by
        rw [List.dropWhile_cons, if_pos hp] at h
        exact h
      rw [List.cons_append, List.dropWhile_cons, if_pos hp,
        List.dropWhile_cons, if_pos hp, ih h']
    · rw [List.cons_append, List.dropWhile_cons, if_neg hp,
        List.dropWhile_cons, if_neg hp, List.cons_append]

theorem keyline_data (k mid p : String) :
    (k ++ mid ++ p).data = k.data ++ (mid.data ++ p.data) := by
  rw [str_data_append, str_data_append, List.append_assoc]

theorem strTrim_keyline_of_empty (k : String) (hk : validate_key k = true) :
    (strTrim (k ++ ": " ++ "")).data = k.data ++ [':'] := by
  obtain ⟨a, t, hd, ha, -⟩ := validate_key_shape hk
  show trimList ((k ++ ": " ++ "").data) = k.data ++ [':']
  rw [keyline_data]
  show trimList (k.data ++ ([':', ' '] ++ [])) = k.data ++ [':']
  rw [List.append_nil, trimList]
  have hfront : (k.data ++ [':', ' ']).dropWhile pythonWS = k.data ++ [':', ' '] := by
    rw [hd, List.cons_append, dropWhile_cons_of_false _ (alnum_not_ws ha)]
  rw [hfront, List.reverse_append]
  show ((' ' :: ':' :: k.data.reverse).dropWhile pythonWS).reverse = k.data ++ [':']
  rw [List.dropWhile_cons, if_pos (by decide),
    dropWhile_cons_of_false _ (by decide), List.reverse_cons, List.reverse_reverse]

theorem strTrim_keyline_of_ne (k p : String) (hk : validate_key k = true)
    (hp : strTrim p = p) (hpne : p.data ≠ []) :
    (strTrim (k ++ ": " ++ p)).data = k.data ++ ':' :: ' ' :: p.data := by
  obtain ⟨a, t, hd, ha, -⟩ := validate_key_shape hk
  show trimList ((k ++ ": " ++ p).data) = k.data ++ ':' :: ' ' :: p.data
  rw [keyline_data]
  show trimList (k.data ++ ([':', ' '] ++ p.data)) = k.data ++ ':' :: ' ' :: p.data
  rw [trimList]
  have hfront : (k.data ++ ([':', ' '] ++ p.data)).dropWhile pythonWS
      = k.data ++ ([':', ' '] ++ p.data) := by
    rw [hd, List.cons_append, dropWhile_cons_of_false _ (alnum_not_ws ha)]
  have hback : p.data.reverse.dropWhile pythonWS = p.data.reverse :=
    (strTrim_fix_parts hp).2
  have hbne : p.data.reverse.dropWhile pythonWS ≠ [] := by
    rw [hback]
    simpa using hpne
  rw [hfront, List.reverse_append, List.reverse_append, List.append_assoc,
    dropWhile_append_of_ne_nil _ hbne, hback, List.reverse_append,
    List.reverse_reverse]
  show (([' ', ':'] : List Char) ++ k.data.reverse).reverse ++ p.data
    = k.data ++ ':' :: ' ' :: p.data
  rw [List.reverse_append, List.reverse_reverse, List.append_assoc]
  rfl

theorem strTrim_gridline_of_empty (k : String) (hk : validate_key k = true) :
    (strTrim (k ++ " = " ++ "")).data = k.data ++ [' ', '='] := by
  obtain ⟨a, t, hd, ha, -⟩ := validate_key_shape hk
  show trimList ((k ++ " = " ++ "").data) = k.data ++ [' ', '=']
  rw [keyline_data]
  show trimList (k.data ++ ([' ', '=', ' '] ++ [])) = k.data ++ [' ', '=']
  rw [List.append_nil, trimList]
  have hfront : (k.data ++ [' ', '=', ' ']).dropWhile pythonWS
      = k.data ++ [' ', '=', ' '] := by
    rw [hd, List.cons_append, dropWhile_cons_of_false _ (alnum_not_ws ha)]
  rw [hfront, List.reverse_append]
  show ((' ' :: '=' :: ' ' :: k.data.reverse).dropWhile pythonWS).reverse
    = k.data ++ [' ', '=']
  rw [List.dropWhile_cons, if_pos (by decide),
    dropWhile_cons_of_false _ (by decide), List.reverse_cons, List.reverse_cons,
    List.reverse_reverse, List.append_assoc]
  rfl

theorem strTrim_gridline_of_ne (k comp : String) (hk : validate_key k = true)
    (hc : strTrim comp = comp) (hcne : comp.data ≠ []) :
    (strTrim (k ++ " = " ++ comp)).data = k.data ++ ' ' :: '=' :: ' ' :: comp.data := by
  obtain ⟨a, t, hd, ha, -⟩ := validate_key_shape hk
  show trimList ((k ++ " = " ++ comp).data) = k.data ++ ' ' :: '=' :: ' ' :: comp.data
  rw [keyline_data]
  show trimList (k.data ++ ([' ', '=', ' '] ++ comp.data))
    = k.data ++ ' ' :: '=' :: ' ' :: comp.data
  rw [trimList]
  have hfront : (k.data ++ ([' ', '=', ' '] ++ comp.data)).dropWhile pythonWS
      = k.data ++ ([' ', '=', ' '] ++ comp.data) := by
    rw [hd, List.cons_append, dropWhile_cons_of_false _ (alnum_not_ws ha)]
  have hback : comp.data.reverse.dropWhile pythonWS = comp.data.reverse :=
    (strTrim_fix_parts hc).2
  have hbne : comp.data.reverse.dropWhile pythonWS ≠ [] := by
    rw [hback]
    simpa using hcne
  rw [hfront, List.reverse_append, List.reverse_append, List.append_assoc,
    dropWhile_append_of_ne_nil _ hbne, hback, List.reverse_append,
    List.reverse_reverse]
  show (([' ', '=', ' '] : List Char).reverse ++ k.data.reverse).reverse ++ comp.data
    = k.data ++ ' ' :: '=' :: ' ' :: comp.data
  rw [List.reverse_append, List.reverse_reverse, List.reverse_reverse,
    List.append_assoc]
  rfl

theorem takeWhile_append_stop {P : Char → Bool} {A : List Char} {b : Char} (B : List Char)
    (hA : ∀ c ∈ A, P c = true) (hb : P b = false) :
    (A ++ b :: B).takeWhile P = A := by
  induction A with
  | nil => simp [List.takeWhile_cons, hb]
  | cons a t ih =>
    rw [List.cons_append, List.takeWhile_cons,
      if_pos (hA a (List.mem_cons_self a t)),
      ih (fun c hc => hA c (List.mem_cons_of_mem a hc))]

theorem strTrim_empty : strTrim "" = "" := rfl

theorem strTrim_space_cons (p : String) (hp : strTrim p = p) :
    strTrim (String.mk (' ' :: p.data)) = p := by
  have hfront := (strTrim_fix_parts hp).1
  have hback := (strTrim_fix_parts hp).2
  show String.mk (trimList (' ' :: p.data)) = p
  rw [trimList, List.dropWhile_cons, if_pos (by decide), hfront, hback,
    List.reverse_reverse, strMk_data]

theorem string_eq_empty_of_data {p : String} (h : p.data = []) : p = "" := by
  have := congrArg String.mk h
  rw [strMk_data] at this
  exact this

theorem parseKV_keyline (k p : String) (hk : validate_key k = true)
    (hp : strTrim p = p) : parseKV ':' (strTrim (k ++ ": " ++ p)) = some (k, p) := by
  obtain ⟨a, t, hd, ha, hall⟩ := validate_key_shape hk
  have hne : ¬(k.data.isEmpty = true) := by rw [hd]; simp
  by_cases hpe : p.data = []
  · have hp0 : p = "" := string_eq_empty_of_data hpe
    subst hp0
    have htw : (k.data ++ [':']).takeWhile Char.isAlphanum = k.data :=
      takeWhile_append_stop _ hall (by decide)
    have hdw : ([':'] : List Char).dropWhile pythonWS = [':'] :=
      dropWhile_cons_of_false _ (by decide)
    rw [parseKV]
    rw [strTrim_keyline_of_empty k hk, htw, if_neg hne, List.drop_left, hdw]
    dsimp only
    rw [if_pos rfl, strMk_data]
    rfl
  · have htw : (k.data ++ ':' :: ' ' :: p.data).takeWhile Char.isAlphanum = k.data :=
      takeWhile_append_stop _ hall (by decide)
    have hdw : (':' :: ' ' :: p.data).dropWhile pythonWS = ':' :: ' ' :: p.data :=
      dropWhile_cons_of_false _ (by decide)
    rw [parseKV]
    rw [strTrim_keyline_of_ne k p hk hp hpe, htw, if_neg hne, List.drop_left, hdw]
    dsimp only
    rw [if_pos rfl, strMk_data, strTrim_space_cons p hp]

theorem parseKV_gridline (k comp : String) (hk : validate_key k = true)
    (hc : strTrim comp = comp) :
    parseKV '=' (strTrim (k ++ " = " ++ comp)) = some (k, comp) := by
  obtain ⟨a, t, hd, ha, hall⟩ := validate_key_shape hk
  have hne : ¬(k.data.isEmpty = true) := by rw [hd]; simp
  by_cases hpe : comp.data = []
  · have hp0 : comp = "" := string_eq_empty_of_data hpe
    subst hp0
    have htw : (k.data ++ [' ', '=']).takeWhile Char.isAlphanum = k.data :=
      takeWhile_append_stop _ hall (by decide)
    have hdw : ([' ', '='] : List Char).dropWhile pythonWS = ['='] := by decide
    rw [parseKV]
    rw [strTrim_gridline_of_empty k hk, htw, if_neg hne, List.drop_left, hdw]
    dsimp only
    rw [if_pos rfl, strMk_data]
    rfl
  · have htw : (k.data ++ ' ' :: '=' :: ' ' :: comp.data).takeWhile Char.isAlphanum
        = k.data := takeWhile_append_stop _ hall (by decide)
    have hdw : (' ' :: '=' :: ' ' :: comp.data).dropWhile pythonWS
        = '=' :: ' ' :: comp.data := by
      rw [List.dropWhile_cons, if_pos (by decide),
        dropWhile_cons_of_false _ (by decide)]
    rw [parseKV]
    rw [strTrim_gridline_of_ne k comp hk hc hpe, htw, if_neg hne, List.drop_left, hdw]
    dsimp only
    rw [if_pos rfl, strMk_data, strTrim_space_cons comp hc]

theorem isPrefixOf_eq_false_at {A B : List Char} (i : Nat) (hiA : i < A.length)
    (hiB : i < B.length) (hne : A.getD i ' ' ≠ B.getD i ' ') :
    A.isPrefixOf B = false := by
  induction A generalizing B i with
  | nil => exact absurd hiA (by simp)
  | cons a as ih =>
    cases B with
    | nil => exact absurd hiB (by simp)
    | cons b bs =>
      show (a == b && as.isPrefixOf bs) = false
      cases i with
      | zero =>
        simp only [List.getD_cons_zero] at hne
        rw [beq_eq_false_iff_ne.mpr hne, Bool.false_and]
      | succ n =>
        simp only [List.getD_cons_succ] at hne
        rw [ih n (Nat.lt_of_succ_lt_succ hiA) (Nat.lt_of_succ_lt_succ hiB) hne,
          Bool.and_false]

theorem isPrefixOf_self_append (A B : List Char) : A.isPrefixOf (A ++ B) = true := by
  induction A with
  | nil => simp [List.isPrefixOf]
  | cons a t ih =>
    show (a == a && t.isPrefixOf (t ++ B)) = true
    simp [ih]

theorem isPrefixOf_false_append (A : List Char) :
    ∀ (B : List Char) (C : List Char), A.isPrefixOf B = false → A.length ≤ B.length →
    A.isPrefixOf (B ++ C) = false := by
  induction A with
  | nil =>
    intro B C h _
    exact absurd h (by simp [List.isPrefixOf])
  | cons a as ih =>
    intro B C h hlen
    cases B with
    | nil => exact absurd hlen (Nat.not_succ_le_zero _)
    | cons b bs =>
      rw [List.cons_append]
      show (a == b && as.isPrefixOf (bs ++ C)) = false
      have h' : (a == b && as.isPrefixOf bs) = false := h
      by_cases hab : (a == b) = true
      · rw [hab, Bool.true_and] at h' ⊢
        exact ih bs C h' (Nat.le_of_succ_le_succ hlen)
      · rw [Bool.not_eq_true] at hab
        rw [hab, Bool.false_and]

theorem findIdx?_append_first {p : String → Bool} {b : String} (hb : p b = true) :
    ∀ (A B : List String) (i : Nat), (∀ x ∈ A, p x = false) →
    (A ++ b :: B).findIdx? p i = some (A.length + i)
  | [], B, i, _ => by simp [List.findIdx?_cons, hb]
  | a :: t, B, i, hA => by
    rw [List.cons_append, List.findIdx?_cons,
      if_neg (by simp [hA a (List.mem_cons_self a t)]),
      findIdx?_append_first hb t B (i + 1) (fun x hx => hA x (List.mem_cons_of_mem a hx))]
    congr 1
    simp only [List.length_cons]
    omega

theorem findSome?_append_none {f : String → Option String} :
    ∀ (A B : List String), (∀ x ∈ A, f x = none) →
    (A ++ B).findSome? f = B.findSome? f
  | [], _, _ => rfl
  | a :: t, B, hA => by
    rw [List.cons_append, List.findSome?_cons, hA a (List.mem_cons_self a t)]
    exact findSome?_append_none t B (fun x hx => hA x (List.mem_cons_of_mem a hx))

theorem ne_of_head_ne {s u : String} {a b : Char} (hs : s.data.getD 0 ' ' = a)
    (hu : u.data.getD 0 ' ' = b) (hab : a ≠ b) : s ≠ u := by
  intro h
  subst h
  exact hab (hs.symm.trans hu)

theorem audit_prefix_false (r rest : List Char) :
    ∀ (kd : List Char), kd ≠ [] → (∀ c ∈ kd, c.isAlphanum = true) →
    ('l' :: 'a' :: 's' :: 't' :: '_' :: r).isPrefixOf (kd ++ ':' :: rest) = false := by
  intro kd hne hall
  rcases kd with _ | ⟨a, _ | ⟨b, _ | ⟨c, _ | ⟨d, _ | ⟨e, t2⟩⟩⟩⟩⟩
  · exact absurd rfl hne
  · refine isPrefixOf_eq_false_at 1 (by simp only [List.length_cons]; omega)
      (by simp only [List.cons_append, List.nil_append, List.length_cons]; omega) ?_
    simp only [List.cons_append, List.nil_append, List.getD_cons_succ, List.getD_cons_zero]
    decide
  · refine isPrefixOf_eq_false_at 2 (by simp only [List.length_cons]; omega)
      (by simp only [List.cons_append, List.nil_append, List.length_cons]; omega) ?_
    simp only [List.cons_append, List.nil_append, List.getD_cons_succ, List.getD_cons_zero]
    decide
  · refine isPrefixOf_eq_false_at 3 (by simp only [List.length_cons]; omega)
      (by simp only [List.cons_append, List.nil_append, List.length_cons]; omega) ?_
    simp only [List.cons_append, List.nil_append, List.getD_cons_succ, List.getD_cons_zero]
    decide
  · refine isPrefixOf_eq_false_at 4 (by simp only [List.length_cons]; omega)
      (by simp only [List.cons_append, List.nil_append, List.length_cons]; omega) ?_
    simp only [List.cons_append, List.nil_append, List.getD_cons_succ, List.getD_cons_zero]
    decide
  · have he : e.isAlphanum = true := hall e (by simp)
    refine isPrefixOf_eq_false_at 4 (by simp only [List.length_cons]; omega)
      (by simp only [List.cons_append, List.length_cons]; omega) ?_
    simp only [List.cons_append, List.getD_cons_succ, List.getD_cons_zero]
    intro h
    rw [← h] at he
    exact absurd he (by decide)

theorem caption_prefix_false (rest : List Char) :
    ∀ (kd : List Char), kd ≠ [] → (∀ c ∈ kd, c.isAlphanum = true) →
    ("Key Definitions:".data).isPrefixOf (kd ++ ':' :: rest) = false := by
  intro kd hne hall
  rcases kd with _ | ⟨a, _ | ⟨b, _ | ⟨c, _ | ⟨d, t2⟩⟩⟩⟩
  · exact absurd rfl hne
  · refine isPrefixOf_eq_false_at 1 (by decide)
      (by simp only [List.cons_append, List.nil_append, List.length_cons]; omega) ?_
    simp only [List.cons_append, List.nil_append, List.getD_cons_succ, List.getD_cons_zero]
    decide
  · refine isPrefixOf_eq_false_at 2 (by decide)
      (by simp only [List.cons_append, List.nil_append, List.length_cons]; omega) ?_
    simp only [List.cons_append, List.nil_append, List.getD_cons_succ, List.getD_cons_zero]
    decide
  · refine isPrefixOf_eq_false_at 3 (by decide)
      (by simp only [List.cons_append, List.nil_append, List.length_cons]; omega) ?_
    simp only [List.cons_append, List.nil_append, List.getD_cons_succ, List.getD_cons_zero]
    decide
  · have hd2 : d.isAlphanum = true := hall d (by simp)
    refine isPrefixOf_eq_false_at 3 (by decide)
      (by simp only [List.cons_append, List.length_cons]; omega) ?_
    simp only [List.cons_append, List.getD_cons_succ, List.getD_cons_zero]
    intro h
    rw [← h] at hd2
    exact absurd hd2 (by decide)

theorem alnum_head_ne {s m : String} {a : Char} (hs : s.data.getD 0 ' ' = a)
    (ha : a.isAlphanum = true) (hm : m.data.getD 0 ' ' = '-') : s ≠ m :=
  ne_of_head_ne hs hm (fun h => absurd (h ▸ ha) (by decide))

theorem keyline_head {k : String} (mid v : String) {a : Char} {t : List Char}
    (hd : k.data = a :: t) : (k ++ mid ++ v).data.getD 0 ' ' = a := by
  rw [keyline_data, hd]
  simp

theorem readKeys_fold (w : String → String) :
    ∀ (ks : List String) (acc : List (String × String)),
    ks.Nodup →
    (∀ k ∈ ks, validate_key k = true) →
    (∀ k ∈ ks, strTrim (w k) = w k ∧ normalize_path (w k) = w k) →
    (∀ k ∈ ks, k ∉ acc.map Prod.fst) →
    (ks.map (fun k => k ++ ": " ++ w k)).foldl
      (fun m line =>
        let lc := strTrim line
        if lc = "" || strStarts lc "Key Definitions:" then m
        else
          match parseKV ':' lc with
          | some (k, v) => if validate_key k then dinsert m k (normalize_path v) else m
          | none => m)
      acc
    = acc ++ ks.map (fun k => (k, w k))
  | [], acc, _, _, _, _ => by simp
  | k :: t, acc, hnd, hval, hw, hfresh => by
    have hkv := hval k (List.mem_cons_self k t)
    have hwt := (hw k (List.mem_cons_self k t)).1
    have hwn := (hw k (List.mem_cons_self k t)).2
    obtain ⟨a, t0, hd0, ha0, hall0⟩ := validate_key_shape hkv
    have hshape : ∃ rest, (strTrim (k ++ ": " ++ w k)).data = k.data ++ ':' :: rest := by
      by_cases hve : (w k).data = []
      · have h0 : w k = "" := string_eq_empty_of_data hve
        exact ⟨[], by rw [h0]; exact strTrim_keyline_of_empty k hkv⟩
      · exact ⟨' ' :: (w k).data, strTrim_keyline_of_ne k (w k) hkv hwt hve⟩
    obtain ⟨rest, hshape⟩ := hshape
    have hlcne : ¬(strTrim (k ++ ": " ++ w k) = "") := by
      intro h
      have h2 := congrArg String.data h
      rw [hshape, hd0] at h2
      exact absurd h2 (by simp)
    have hcap : strStarts (strTrim (k ++ ": " ++ w k)) "Key Definitions:" = false := by
      rw [strStarts, hshape]
      exact caption_prefix_false rest k.data (by rw [hd0]; simp) hall0
    have hparse := parseKV_keyline k (w k) hkv hwt
    rw [List.map_cons, List.foldl_cons,
      if_neg (by rw [decide_eq_false hlcne, hcap]; simp), hparse]
    dsimp only
    rw [if_pos hkv, hwn, dinsert_of_notin (w k) (hfresh k (List.mem_cons_self k t))]
    rw [readKeys_fold w t (acc ++ [(k, w k)]) (List.nodup_cons.mp hnd).2
      (fun x hx => hval x (List.mem_cons_of_mem k hx))
      (fun x hx => hw x (List.mem_cons_of_mem k hx))
      (fun x hx => by
        rw [List.map_append]
        intro hmem
        rcases List.mem_append.mp hmem with h1 | h1
        · exact hfresh x (List.mem_cons_of_mem k hx) h1
        · simp at h1
          subst h1
          exact (List.nodup_cons.mp hnd).1 hx)]
    rw [List.append_assoc, List.singleton_append, List.map_cons]

theorem readGrid_fold (w : String → String) :
    ∀ (ks : List String) (acc : List (String × String)),
    ks.Nodup →
    (∀ k ∈ ks, validate_key k = true) →
    (∀ k ∈ ks, strTrim (w k) = w k) →
    (∀ k ∈ ks, k ∉ acc.map Prod.fst) →
    (ks.map (fun k => k ++ " = " ++ w k)).foldl
      (fun m line =>
        match parseKV '=' (strTrim line) with
        | some (k, v) => if validate_key k then dinsert m k v else m
        | none => m)
      acc
    = acc ++ ks.map (fun k => (k, w k))
  | [], acc, _, _, _, _ => by simp
  | k :: t, acc, hnd, hval, hw, hfresh => by
    have hkv := hval k (List.mem_cons_self k t)
    have hwt := hw k (List.mem_cons_self k t)
    have hparse := parseKV_gridline k (w k) hkv hwt
    rw [List.map_cons, List.foldl_cons, hparse]
    dsimp only
    rw [if_pos hkv, dinsert_of_notin (w k) (hfresh k (List.mem_cons_self k t))]
    rw [readGrid_fold w t (acc ++ [(k, w k)]) (List.nodup_cons.mp hnd).2
      (fun x hx => hval x (List.mem_cons_of_mem k hx))
      (fun x hx => hw x (List.mem_cons_of_mem k hx))
      (fun x hx => by
        rw [List.map_append]
        intro hmem
        rcases List.mem_append.mp hmem with h1 | h1
        · exact hfresh x (List.mem_cons_of_mem k hx) h1
        · simp at h1
          subst h1
          exact (List.nodup_cons.mp hnd).1 hx)]
    rw [List.append_assoc, List.singleton_append, List.map_cons]

theorem normalize_map_fix : ∀ c : Char,
    pythonWS ((fun c => if c = '\\' then '/' else c) c) = pythonWS c := by
  intro c
  by_cases hc : c = '\\'
  · rw [hc]
    decide
  · simp [hc]

theorem normalize_path_idem (p : String) :
    normalize_path (normalize_path p) = normalize_path p := by
  rw [normalize_path, normalize_path, strMk_data, List.map_map]
  congr 1
  refine List.map_congr_left (fun c _ => ?_)
  by_cases hc : c = '\\'
  · rw [hc]
    decide
  · simp [hc]

theorem trimList_map_normalize (l : List Char) :
    trimList (l.map (fun c => if c = '\\' then '/' else c))
      = (trimList l).map (fun c => if c = '\\' then '/' else c) := by
  have hfun : pythonWS ∘ (fun c => if c = '\\' then '/' else c) = pythonWS :=
    funext normalize_map_fix
  rw [trimList, trimList, List.dropWhile_map, hfun, ← List.map_reverse,
    List.dropWhile_map, hfun, ← List.map_reverse]

theorem strTrim_normalize (p : String) (h : strTrim p = p) :
    strTrim (normalize_path p) = normalize_path p := by
  have hdata : trimList p.data = p.data := congrArg String.data h
  rw [normalize_path, strTrim, strMk_data, trimList_map_normalize, hdata]

theorem dropWhile_all_false {α : Type} (p : α → Bool) (ls : List α)
    (h : ∀ l ∈ ls, p l = false) : ls.dropWhile p = ls := by
  cases ls with
  | nil => rfl
  | cons a t => rw [List.dropWhile_cons, if_neg (by simp [h a (List.mem_cons_self a t)])]

theorem trimBlankEnds_id (ls : List String) (h : ∀ l ∈ ls, ¬(strTrim l = "")) :
    trimBlankEnds ls = ls := by
  rw [trimBlankEnds, dropWhile_all_false _ ls (fun l hl => decide_eq_false (h l hl)),
    dropWhile_all_false _ ls.reverse
      (fun l hl => decide_eq_false (h l (List.mem_reverse.mp hl))),
    List.reverse_reverse]

theorem takeSection_spec (startM endM : String) (A B C : List String)
    (hA : ∀ x ∈ A, x ≠ startM) (hB : ∀ x ∈ B, x ≠ endM) :
    takeSection (A ++ startM :: (B ++ endM :: C)) startM endM = some B := by
  have h1 : (A ++ startM :: (B ++ endM :: C)).findIdx? (fun l => l = startM) 0
      = some (A.length + 0) :=
    findIdx?_append_first (by simp) A _ 0 (fun x hx => decide_eq_false (hA x hx))
  have h2 : (B ++ endM :: C).findIdx? (fun l => l = endM) 0 = some (B.length + 0) :=
    findIdx?_append_first (by simp) B _ 0 (fun x hx => decide_eq_false (hB x hx))
  rw [takeSection, h1]
  dsimp only
  have hdrop : (A ++ startM :: (B ++ endM :: C)).drop (A.length + 0 + 1)
      = B ++ endM :: C := by
    rw [show A ++ startM :: (B ++ endM :: C) = (A ++ [startM]) ++ (B ++ endM :: C) by simp]
    exact List.drop_left' (by simp)
  rw [hdrop, h2]
  dsimp only
  rw [List.take_left' (by simp)]

theorem parseAuditLine_hit (tag pre val : String)
    (hpre : pre.data = tag.data ++ [':', ' ']) (htrim : strTrim val = val) :
    parseAuditLine tag (pre ++ val) = some val := by
  have hdata : (pre ++ val).data = tag.data ++ (':' :: ' ' :: val.data) := by
    rw [str_data_append, hpre, List.append_assoc]
    rfl
  have hstart : strStarts (pre ++ val) tag = true := by
    rw [strStarts, hdata]
    exact isPrefixOf_self_append tag.data _
  rw [parseAuditLine, if_pos hstart, hdata, List.drop_left,
    dropWhile_cons_of_false _ (by decide)]
  dsimp only
  rw [if_pos rfl, strTrim_space_cons val htrim]

theorem parseAuditLine_keyline_none (tag k mid v : String) (r : List Char)
    (htag : tag.data = 'l' :: 'a' :: 's' :: 't' :: '_' :: r)
    (hmid : mid.data = ':' :: ' ' :: []) (hk : validate_key k = true) :
    parseAuditLine tag (k ++ mid ++ v) = none := by
  obtain ⟨a, t, hd, ha, hall⟩ := validate_key_shape hk
  have hstart : strStarts (k ++ mid ++ v) tag = false := by
    rw [strStarts, htag, keyline_data, hmid]
    exact audit_prefix_false r (' ' :: v.data) k.data (by rw [hd]; simp) hall
  rw [parseAuditLine, if_neg (by rw [hstart]; simp)]

theorem parseAuditLine_other_audit (tag pre v : String)
    (hfalse : tag.data.isPrefixOf pre.data = false)
    (hlen : tag.data.length ≤ pre.data.length) :
    parseAuditLine tag (pre ++ v) = none := by
  have hstart : strStarts (pre ++ v) tag = false := by
    rw [strStarts, str_data_append]
    exact isPrefixOf_false_append _ _ _ hfalse hlen
  rw [parseAuditLine, if_neg (by rw [hstart]; simp)]

theorem joinSpace_last : ∀ (ks : List String), ks ≠ [] →
    (∀ k ∈ ks, validate_key k = true) →
    ∃ c l, (joinSpace ks).data.reverse = c :: l ∧ c.isAlphanum = true
  | [], h, _ => absurd rfl h
  | [k], _, hall => by
    obtain ⟨a, t, hd, ha, hallk⟩ := validate_key_shape (hall k (by simp))
    show ∃ c l, k.data.reverse = c :: l ∧ c.isAlphanum = true
    cases hrev : k.data.reverse with
    | nil =>
      rw [List.reverse_eq_nil_iff] at hrev
      rw [hrev] at hd
      exact absurd hd (by simp)
    | cons c l =>
      refine ⟨c, l, rfl, hallk c ?_⟩
      rw [← List.mem_reverse, hrev]
      exact List.mem_cons_self c l
  | k :: k2 :: t, _, hall => by
    obtain ⟨c, l, hrev, hc⟩ := joinSpace_last (k2 :: t) (by simp)
      (fun x hx => hall x (List.mem_cons_of_mem k hx))
    show ∃ c' l', ((k ++ " " ++ joinSpace (k2 :: t)).data).reverse = c' :: l' ∧
      c'.isAlphanum = true
    refine ⟨c, l ++ ' ' :: k.data.reverse, ?_, hc⟩
    rw [keyline_data]
    simp [List.reverse_append, hrev]

theorem header_facts (ks : List String) (hne : ks ≠ [])
    (hall : ∀ k ∈ ks, validate_key k = true) :
    strTrim ("X " ++ joinSpace ks) = "X " ++ joinSpace ks ∧
    strStarts ("X " ++ joinSpace ks) "X " = true := by
  obtain ⟨c, l, hrev, hc⟩ := joinSpace_last ks hne hall
  have hdata : ("X " ++ joinSpace ks).data = 'X' :: ' ' :: (joinSpace ks).data := by
    rw [str_data_append]
    rfl
  constructor
  · show String.mk (trimList (("X " ++ joinSpace ks).data)) = "X " ++ joinSpace ks
    rw [hdata, trimList, dropWhile_cons_of_false _ (by decide)]
    have hrev2 : ('X' :: ' ' :: (joinSpace ks).data).reverse = c :: (l ++ [' ', 'X']) := by
      rw [List.reverse_cons, List.reverse_cons, hrev]
      simp
    rw [hrev2, dropWhile_cons_of_false _ (alnum_not_ws hc), ← hrev2,
      List.reverse_reverse, ← hdata, strMk_data]
  · rw [strStarts, hdata]
    exact isPrefixOf_self_append ['X', ' '] (joinSpace ks).data

theorem keyline_heads (ks : List String) (f : String → String)
    (hksval : ∀ k ∈ ks, validate_key k = true) (mid : String) :
    ∀ x ∈ ks.map (fun k => k ++ mid ++ f k),
    ∃ a, x.data.getD 0 ' ' = a ∧ a.isAlphanum = true := by
  intro x hx
  obtain ⟨k, hk, rfl⟩ := List.mem_map.mp hx
  obtain ⟨a, t, hd, ha, -⟩ := validate_key_shape (hksval k hk)
  exact ⟨a, keyline_head _ _ hd, ha⟩

theorem read_writeLines_keys (ks : List String) (keyDefs fg : List (String × String))
    (lke lge : String) (hksnd : ks.Nodup)
    (hksval : ∀ k ∈ ks, validate_key k = true)
    (hw : ∀ k ∈ ks, strTrim (normalize_path ((alookup keyDefs k).getD ""))
        = normalize_path ((alookup keyDefs k).getD "") ∧
      normalize_path (normalize_path ((alookup keyDefs k).getD ""))
        = normalize_path ((alookup keyDefs k).getD "")) :
    (read_tracker_file (writeLines ks keyDefs fg lke lge)).keys
      = ks.map (fun k => (k, normalize_path ((alookup keyDefs k).getD ""))) := by
  have htake1 : takeSection (writeLines ks keyDefs fg lke lge)
      "---KEY_DEFINITIONS_START---" "---KEY_DEFINITIONS_END---"
      = some ("Key Definitions:" ::
          ks.map (fun k => k ++ ": " ++ normalize_path ((alookup keyDefs k).getD ""))) := by
    have hshape : writeLines ks keyDefs fg lke lge
        = [] ++ "---KEY_DEFINITIONS_START---" ::
          (("Key Definitions:" ::
            ks.map (fun k => k ++ ": " ++ normalize_path ((alookup keyDefs k).getD "")))
           ++ "---KEY_DEFINITIONS_END---" ::
            ("" :: ("last_KEY_edit: " ++ lke) :: ("last_GRID_edit: " ++ lge) :: "" ::
             "---GRID_START---" ::
             ((if ks.isEmpty then ["X "]
               else ("X " ++ joinSpace ks)
                 :: ks.map (fun k => k ++ " = " ++ (alookup fg k).getD ""))
              ++ ["---GRID_END---"]))) := by
      rw [writeLines]
      simp
    rw [hshape]
    refine takeSection_spec _ _ [] _ _ (by simp) ?_
    intro x hx
    rcases List.mem_cons.mp hx with h1 | h1
    · subst h1
      decide
    · obtain ⟨a, hga, haa⟩ := keyline_heads ks _ hksval ": " x h1
      exact alnum_head_ne hga haa (by decide)
  show (match takeSection (writeLines ks keyDefs fg lke lge)
      "---KEY_DEFINITIONS_START---" "---KEY_DEFINITIONS_END---" with
    | some sec => readKeysSection sec
    | none => []) = _
  rw [htake1]
  dsimp only
  rw [readKeysSection, List.foldl_cons,
    if_pos (show (decide (strTrim "Key Definitions:" = "")
      || strStarts (strTrim "Key Definitions:") "Key Definitions:") = true by decide)]
  exact readKeys_fold (fun k => normalize_path ((alookup keyDefs k).getD "")) ks []
    hksnd hksval hw (by simp)

theorem read_writeLines_grid (ks : List String) (keyDefs fg : List (String × String))
    (lke lge : String) (hksnd : ks.Nodup)
    (hksval : ∀ k ∈ ks, validate_key k = true)
    (hrt : ∀ k ∈ ks, strTrim ((alookup fg k).getD "") = (alookup fg k).getD "") :
    (read_tracker_file (writeLines ks keyDefs fg lke lge)).grid
      = ks.map (fun k => (k, (alookup fg k).getD "")) := by
  have htake3 : takeSection (writeLines ks keyDefs fg lke lge)
      "---GRID_START---" "---GRID_END---"
      = some (if ks.isEmpty then ["X "]
          else ("X " ++ joinSpace ks)
            :: ks.map (fun k => k ++ " = " ++ (alookup fg k).getD "")) := by
    have hshape : writeLines ks keyDefs fg lke lge
        = ("---KEY_DEFINITIONS_START---" :: "Key Definitions:" ::
            (ks.map (fun k => k ++ ": " ++ normalize_path ((alookup keyDefs k).getD ""))
             ++ ["---KEY_DEFINITIONS_END---", "",
                 "last_KEY_edit: " ++ lke, "last_GRID_edit: " ++ lge, ""]))
          ++ "---GRID_START---" ::
            ((if ks.isEmpty then ["X "]
              else ("X " ++ joinSpace ks)
                :: ks.map (fun k => k ++ " = " ++ (alookup fg k).getD ""))
             ++ "---GRID_END---" :: []) := by
      rw [writeLines]
      simp
    rw [hshape]
    refine takeSection_spec _ _ _ _ _ ?_ ?_
    · intro x hx
      rcases List.mem_cons.mp hx with h1 | h1
      · subst h1
        decide
      rcases List.mem_cons.mp h1 with h2 | h2
      · subst h2
        decide
      rcases List.mem_append.mp h2 with h3 | h3
      · obtain ⟨a, hga, haa⟩ := keyline_heads ks _ hksval ": " x h3
        exact alnum_head_ne hga haa (by decide)
      · simp only [List.mem_cons, List.not_mem_nil, or_false] at h3
        rcases h3 with rfl | rfl | rfl | rfl | rfl
        · decide
        · decide
        · exact ne_of_head_ne (a := 'l') (b := '-') (by rw [str_data_append]; rfl)
            (by decide) (by decide)
        · exact ne_of_head_ne (a := 'l') (b := '-') (by rw [str_data_append]; rfl)
            (by decide) (by decide)
        · decide
    · intro x hx
      by_cases hke : ks.isEmpty = true
      · rw [if_pos hke] at hx
        simp only [List.mem_cons, List.not_mem_nil, or_false] at hx
        subst hx
        decide
      · rw [if_neg hke] at hx
        rcases List.mem_cons.mp hx with h1 | h1
        · subst h1
          exact ne_of_head_ne (a := 'X') (b := '-') (by rw [str_data_append]; rfl)
            (by decide) (by decide)
        · obtain ⟨a, hga, haa⟩ := keyline_heads ks _ hksval " = " x h1
          exact alnum_head_ne hga haa (by decide)
  show (match takeSection (writeLines ks keyDefs fg lke lge)
      "---GRID_START---" "---GRID_END---" with
    | some sec => readGridSection sec
    | none => []) = _
  rw [htake3]
  dsimp only
  by_cases hke : ks.isEmpty = true
  · have hks0 : ks = [] := by
      cases ks with
      | nil => rfl
      | cons a t => exact absurd hke (by simp)
    rw [if_pos hke, hks0]
    simp only [List.map_nil]
    decide
  · rw [if_neg hke]
    have hksne : ks ≠ [] := by
      intro h
      rw [h] at hke
      exact hke rfl
    have hht := header_facts ks hksne hksval
    rw [readGridSection]
    have hnoblank : ∀ l ∈ ("X " ++ joinSpace ks)
        :: ks.map (fun k => k ++ " = " ++ (alookup fg k).getD ""),
        ¬(strTrim l = "") := by
      intro l hl
      rcases List.mem_cons.mp hl with h1 | h1
      · subst h1
        rw [hht.1]
        intro h
        have h2 : ("X " ++ joinSpace ks).data.getD 0 ' ' = 'X' := by
          rw [str_data_append]
          rfl
        rw [h] at h2
        exact absurd h2 (by decide)
      · obtain ⟨k, hk, rfl⟩ := List.mem_map.mp h1
        intro h
        have hdata := congrArg String.data h
        rw [show ("" : String).data = [] from rfl] at hdata
        obtain ⟨a, t, hd, -, -⟩ := validate_key_shape (hksval k hk)
        by_cases hre : ((alookup fg k).getD "").data = []
        · have h0 : (alookup fg k).getD "" = "" := string_eq_empty_of_data hre
          rw [h0, strTrim_gridline_of_empty k (hksval k hk), hd] at hdata
          exact absurd hdata (by simp)
        · rw [strTrim_gridline_of_ne k _ (hksval k hk) (hrt k hk) hre, hd] at hdata
          exact absurd hdata (by simp)
    rw [trimBlankEnds_id _ hnoblank]
    dsimp only
    have hcond : (strStarts (strTrim ("X " ++ joinSpace ks)) "X "
        || decide (strTrim ("X " ++ joinSpace ks) = "X")) = true := by
      rw [hht.1, hht.2, Bool.true_or]
    rw [if_pos hcond]
    exact readGrid_fold (fun k => (alookup fg k).getD "") ks [] hksnd hksval hrt (by simp)

theorem read_writeLines_lke (ks : List String) (keyDefs fg : List (String × String))
    (lke lge : String) (hksval : ∀ k ∈ ks, validate_key k = true)
    (Hlke : strTrim lke = lke) :
    (read_tracker_file (writeLines ks keyDefs fg lke lge)).last_key_edit = lke := by
  have hshape : writeLines ks keyDefs fg lke lge
      = ("---KEY_DEFINITIONS_START---" :: "Key Definitions:" ::
          (ks.map (fun k => k ++ ": " ++ normalize_path ((alookup keyDefs k).getD ""))
           ++ ["---KEY_DEFINITIONS_END---", ""]))
        ++ ("last_KEY_edit: " ++ lke) :: ("last_GRID_edit: " ++ lge) :: "" ::
          "---GRID_START---" ::
          ((if ks.isEmpty then ["X "]
            else ("X " ++ joinSpace ks)
              :: ks.map (fun k => k ++ " = " ++ (alookup fg k).getD ""))
           ++ ["---GRID_END---"]) := by
    rw [writeLines]
    simp
  have hnone : ∀ x ∈ ("---KEY_DEFINITIONS_START---" :: "Key Definitions:" ::
      (ks.map (fun k => k ++ ": " ++ normalize_path ((alookup keyDefs k).getD ""))
       ++ ["---KEY_DEFINITIONS_END---", ""])),
      parseAuditLine "last_KEY_edit" x = none := by
    intro x hx
    rcases List.mem_cons.mp hx with h1 | h1
    · subst h1
      decide
    rcases List.mem_cons.mp h1 with h2 | h2
    · subst h2
      decide
    rcases List.mem_append.mp h2 with h3 | h3
    · obtain ⟨k, hk, rfl⟩ := List.mem_map.mp h3
      exact parseAuditLine_keyline_none "last_KEY_edit" k ": " _
        ['K', 'E', 'Y', '_', 'e', 'd', 'i', 't'] rfl rfl (hksval k hk)
    · simp only [List.mem_cons, List.not_mem_nil, or_false] at h3
      rcases h3 with rfl | rfl
      · decide
      · decide
  show ((writeLines ks keyDefs fg lke lge).findSome?
      (parseAuditLine "last_KEY_edit")).getD "" = lke
  rw [hshape, findSome?_append_none _ _ hnone, List.findSome?_cons,
    parseAuditLine_hit "last_KEY_edit" "last_KEY_edit: " lke rfl Hlke]
  rfl

theorem read_writeLines_lge (ks : List String) (keyDefs fg : List (String × String))
    (lke lge : String) (hksval : ∀ k ∈ ks, validate_key k = true)
    (Hlge : strTrim lge = lge) :
    (read_tracker_file (writeLines ks keyDefs fg lke lge)).last_grid_edit = lge := by
  have hshape : writeLines ks keyDefs fg lke lge
      = ("---KEY_DEFINITIONS_START---" :: "Key Definitions:" ::
          (ks.map (fun k => k ++ ": " ++ normalize_path ((alookup keyDefs k).getD ""))
           ++ ["---KEY_DEFINITIONS_END---", "", "last_KEY_edit: " ++ lke]))
        ++ ("last_GRID_edit: " ++ lge) :: "" ::
          "---GRID_START---" ::
          ((if ks.isEmpty then ["X "]
            else ("X " ++ joinSpace ks)
              :: ks.map (fun k => k ++ " = " ++ (alookup fg k).getD ""))
           ++ ["---GRID_END---"]) := by
    rw [writeLines]
    simp
  have hnone : ∀ x ∈ ("---KEY_DEFINITIONS_START---" :: "Key Definitions:" ::
      (ks.map (fun k => k ++ ": " ++ normalize_path ((alookup keyDefs k).getD ""))
       ++ ["---KEY_DEFINITIONS_END---", "", "last_KEY_edit: " ++ lke])),
      parseAuditLine "last_GRID_edit" x = none := by
    intro x hx
    rcases List.mem_cons.mp hx with h1 | h1
    · subst h1
      decide
    rcases List.mem_cons.mp h1 with h2 | h2
    · subst h2
      decide
    rcases List.mem_append.mp h2 with h3 | h3
    · obtain ⟨k, hk, rfl⟩ := List.mem_map.mp h3
      exact parseAuditLine_keyline_none "last_GRID_edit" k ": " _
        ['G', 'R', 'I', 'D', '_', 'e', 'd', 'i', 't'] rfl rfl (hksval k hk)
    · simp only [List.mem_cons, List.not_mem_nil, or_false] at h3
      rcases h3 with rfl | rfl | rfl
      · decide
      · decide
      · exact parseAuditLine_other_audit "last_GRID_edit" "last_KEY_edit: " lke
          (by decide) (by decide)
  show ((writeLines ks keyDefs fg lke lge).findSome?
      (parseAuditLine "last_GRID_edit")).getD "" = lge
  rw [hshape, findSome?_append_none _ _ hnone, List.findSome?_cons,
    parseAuditLine_hit "last_GRID_edit" "last_GRID_edit: " lge rfl Hlge]
  rfl

/-- C4: for a tracker whose key definitions carry unique valid keys and
stripped path strings, and whose grid has a stored, stripped, square row for
every key over the canonical order, `write_tracker_file` succeeds and
`read_tracker_file` on the written lines returns the same tracker up to
canonical key ordering (the read key definitions are keyed in canonical
sorted order) and path normalization (each read path is the normalized
original); the grid rows and both audit strings come back unchanged. -/
theorem C4_round_trip (keyDefs grid : List (String × String)) (lke lge : String)
    (Hnd : (keyDefs.map Prod.fst).Nodup)
    (Hk : ∀ kv ∈ keyDefs, validate_key kv.1 = true)
    (Hp : ∀ kv ∈ keyDefs, strTrim kv.2 = kv.2)
    (Hdom : validate_grid grid
      (sort_key_strings_hierarchically (keyDefs.map Prod.fst)) = true)
    (Hcover : ∀ k ∈ keyDefs.map Prod.fst, (alookup grid k).isSome = true)
    (Hsq : ∀ kv ∈ grid, (decompress kv.2).length = keyDefs.length)
    (Hgt : ∀ kv ∈ grid, strTrim kv.2 = kv.2)
    (Hlke : strTrim lke = lke) (Hlge : strTrim lge = lge) :
    ∃ w, write_tracker_file keyDefs grid lke lge = some w ∧
      (∀ q, alookup (read_tracker_file w.lines).keys q
          = (alookup keyDefs q).map normalize_path) ∧
      (read_tracker_file w.lines).keys.map Prod.fst
        = sort_key_strings_hierarchically (keyDefs.map Prod.fst) ∧
      (∀ q, alookup (read_tracker_file w.lines).grid q = alookup grid q) ∧
      (read_tracker_file w.lines).last_key_edit = lke ∧
      (read_tracker_file w.lines).last_grid_edit = lge := by
  have hksnd := sort_nodup Hnd
  have hksval : ∀ k ∈ sort_key_strings_hierarchically (keyDefs.map Prod.fst),
      validate_key k = true := by
    intro k hk
    obtain ⟨kv, hkv, hco⟩ := List.mem_map.mp (mem_sort.mp hk)
    exact hco ▸ Hk kv hkv
  have hkeyval : ∀ k ∈ sort_key_strings_hierarchically (keyDefs.map Prod.fst),
      ∃ v, alookup keyDefs k = some v ∧ (k, v) ∈ keyDefs := by
    intro k hk
    cases h : alookup keyDefs k with
    | none => exact absurd (mem_sort.mp hk) (alookup_eq_none_iff.mp h)
    | some v => exact ⟨v, rfl, alookup_mem h⟩
  have hw : ∀ k ∈ sort_key_strings_hierarchically (keyDefs.map Prod.fst),
      strTrim (normalize_path ((alookup keyDefs k).getD ""))
        = normalize_path ((alookup keyDefs k).getD "") ∧
      normalize_path (normalize_path ((alookup keyDefs k).getD ""))
        = normalize_path ((alookup keyDefs k).getD "") := by
    intro k hk
    obtain ⟨v, hv, hvm⟩ := hkeyval k hk
    rw [hv]
    exact ⟨strTrim_normalize v (Hp (k, v) hvm), normalize_path_idem v⟩
  have hrow : ∀ k ∈ sort_key_strings_hierarchically (keyDefs.map Prod.fst),
      ∃ r, alookup grid k = some r ∧
        compress (writeRowFor grid
          (sort_key_strings_hierarchically (keyDefs.map Prod.fst)) k) = r := by
    intro k hk
    have hcov := Hcover k (mem_sort.mp hk)
    cases h : alookup grid k with
    | none =>
      rw [h] at hcov
      exact absurd hcov (by simp)
    | some r =>
      refine ⟨r, rfl, ?_⟩
      have hlen : (decompress r).length
          = (sort_key_strings_hierarchically (keyDefs.map Prod.fst)).length := by
        rw [sort_length, List.length_map]
        exact Hsq (k, r) (alookup_mem h)
      rw [writeRowFor, h]
      dsimp only
      rw [if_pos hlen]
      exact compress_decompress r
  have hrt : ∀ k ∈ sort_key_strings_hierarchically (keyDefs.map Prod.fst),
      strTrim ((alookup
        ((sort_key_strings_hierarchically (keyDefs.map Prod.fst)).map
          (fun rowKey => (rowKey, compress (writeRowFor grid
            (sort_key_strings_hierarchically (keyDefs.map Prod.fst)) rowKey)))) k).getD "")
      = (alookup
        ((sort_key_strings_hierarchically (keyDefs.map Prod.fst)).map
          (fun rowKey => (rowKey, compress (writeRowFor grid
            (sort_key_strings_hierarchically (keyDefs.map Prod.fst)) rowKey)))) k).getD "" := by
    intro k hk
    obtain ⟨r, hr, hcr⟩ := hrow k hk
    have hfg : (alookup
        ((sort_key_strings_hierarchically (keyDefs.map Prod.fst)).map
          (fun rowKey => (rowKey, compress (writeRowFor grid
            (sort_key_strings_hierarchically (keyDefs.map Prod.fst)) rowKey)))) k).getD ""
        = r := by
      rw [alookup_map_self, if_pos hk]
      exact hcr
    rw [hfg]
    exact Hgt (k, r) (alookup_mem hr)
  have hwrite : write_tracker_file keyDefs grid lke lge = some
      ⟨sort_key_strings_hierarchically (keyDefs.map Prod.fst),
       (sort_key_strings_hierarchically (keyDefs.map Prod.fst)).map
         (fun rowKey => (rowKey, compress (writeRowFor grid
           (sort_key_strings_hierarchically (keyDefs.map Prod.fst)) rowKey))),
       writeLines (sort_key_strings_hierarchically (keyDefs.map Prod.fst)) keyDefs
         ((sort_key_strings_hierarchically (keyDefs.map Prod.fst)).map
           (fun rowKey => (rowKey, compress (writeRowFor grid
             (sort_key_strings_hierarchically (keyDefs.map Prod.fst)) rowKey))))
         lke lge⟩ := by
    rw [write_tracker_file]
    rw [if_neg (not_not_intro Hdom)]
  refine ⟨_, hwrite, ?_, ?_, ?_, ?_, ?_⟩
  · intro q
    show alookup (read_tracker_file (writeLines
        (sort_key_strings_hierarchically (keyDefs.map Prod.fst)) keyDefs
        ((sort_key_strings_hierarchically (keyDefs.map Prod.fst)).map
          (fun rowKey => (rowKey, compress (writeRowFor grid
            (sort_key_strings_hierarchically (keyDefs.map Prod.fst)) rowKey))))
        lke lge)).keys q = (alookup keyDefs q).map normalize_path
    rw [read_writeLines_keys _ keyDefs _ lke lge hksnd hksval hw, alookup_map_self]
    by_cases hq : q ∈ sort_key_strings_hierarchically (keyDefs.map Prod.fst)
    · rw [if_pos hq]
      obtain ⟨v, hv, -⟩ := hkeyval q hq
      rw [hv]
      rfl
    · rw [if_neg hq,
        alookup_eq_none_iff.mpr (fun hmem => hq (mem_sort.mpr hmem))]
      rfl
  · show (read_tracker_file (writeLines
        (sort_key_strings_hierarchically (keyDefs.map Prod.fst)) keyDefs
        ((sort_key_strings_hierarchically (keyDefs.map Prod.fst)).map
          (fun rowKey => (rowKey, compress (writeRowFor grid
            (sort_key_strings_hierarchically (keyDefs.map Prod.fst)) rowKey))))
        lke lge)).keys.map Prod.fst
      = sort_key_strings_hierarchically (keyDefs.map Prod.fst)
    rw [read_writeLines_keys _ keyDefs _ lke lge hksnd hksval hw, List.map_map]
    exact (List.map_congr_left (fun a _ => rfl)).trans (List.map_id _)
  · intro q
    show alookup (read_tracker_file (writeLines
        (sort_key_strings_hierarchically (keyDefs.map Prod.fst)) keyDefs
        ((sort_key_strings_hierarchically (keyDefs.map Prod.fst)).map
          (fun rowKey => (rowKey, compress (writeRowFor grid
            (sort_key_strings_hierarchically (keyDefs.map Prod.fst)) rowKey))))
        lke lge)).grid q = alookup grid q
    rw [read_writeLines_grid _ keyDefs _ lke lge hksnd hksval hrt, alookup_map_self]
    by_cases hq : q ∈ sort_key_strings_hierarchically (keyDefs.map Prod.fst)
    · rw [if_pos hq]
      obtain ⟨r, hr, hcr⟩ := hrow q hq
      rw [hr, alookup_map_self, if_pos hq, hcr]
      rfl
    · rw [if_neg hq]
      cases hgq : alookup grid q with
      | none => rfl
      | some r =>
        exfalso
        have h2 := Hdom
        rw [validate_grid, List.all_eq_true] at h2
        have h3 := h2 (q, r) (alookup_mem hgq)
        exact hq (List.mem_of_elem_eq_true h3)
  · exact read_writeLines_lke _ keyDefs _ lke lge hksval Hlke
  · exact read_writeLines_lge _ keyDefs _ lke lge hksval Hlge

theorem C4_round_trip_witness :
    ∃ w, write_tracker_file [("1A", "a/b")] [("1A", "o")] "k1" "g1" = some w ∧
      (∀ q, alookup (read_tracker_file w.lines).keys q
          = (alookup [("1A", "a/b")] q).map normalize_path) ∧
      (read_tracker_file w.lines).keys.map Prod.fst
        = sort_key_strings_hierarchically ([("1A", "a/b")].map Prod.fst) ∧
      (∀ q, alookup (read_tracker_file w.lines).grid q = alookup [("1A", "o")] q) ∧
      (read_tracker_file w.lines).last_key_edit = "k1" ∧
      (read_tracker_file w.lines).last_grid_edit = "g1" :=
  C4_round_trip [("1A", "a/b")] [("1A", "o")] "k1" "g1" (by decide) (by decide)
    (by decide) (by decide) (by decide) (by decide) (by decide) (by decide) (by decide)
